import Mathlib

/-!
Verification development for the ABI-lowering examples (structs, tagged
unions, closures) of the cranelift-examples repository.

The embedding is shallow: the Rust functions of the repository are
translated into executable Lean definitions.  Machine memory is modelled
byte-wise (little endian), Cranelift scalar types are represented by their
byte width (`I32 = 4`, `I64 = 8`, ...), and the recursions through the
type lookup table (which the source performs by unbounded recursion and
which would diverge on a cyclic table) take an explicit fuel argument that
is consumed when descending into a nested `Struct`; theorems carry the
hypothesis that the computation succeeds at the given fuel.  All functions
recurse structurally (fuel outermost) so that they evaluate by kernel
reduction.  Rust panics (`expect`, `unwrap`, out-of-bounds indexing) are
modelled by `Option.none`.
-/

namespace CE

/-! ## Definitions -/

/-- Byte-addressed machine memory: address to byte cell. -/
def Mem : Type := Nat → Nat

/-- The all-zero memory. -/
def memZero : Mem := fun _ => 0

/-- Store the `w`-byte little-endian representation of `v` at `addr`. -/
def mstore (m : Mem) (addr w v : Nat) : Mem :=
  fun a => if addr ≤ a ∧ a < addr + w then v / 2 ^ (8 * (a - addr)) % 256 else m a

/-- Load a `w`-byte little-endian value from `addr`. -/
def mload (m : Mem) : Nat → Nat → Nat
  | _, 0 => 0
  | addr, w + 1 => m addr % 256 + 256 * mload m (addr + 1) w

/-- Store a list of (width, value) fields at cumulative offsets starting at
`base`, in declared order.  This is the store loop shared (textually) by
`stack_alloc_payload` (tagged-union-layouts) and `stack_alloc_captures`
(closures): `offset` starts at 0 and is incremented by each field's byte
size after its `stack_store`. -/
def writeSeq (m : Mem) (base : Nat) : List (Nat × Nat) → Mem
  | [] => m
  | (w, v) :: rest => writeSeq (mstore m base w v) (base + w) rest

/-- Load values of the given widths at cumulative offsets starting at
`base`.  This is the load loop of `read_payload`'s `StackPointer` case and
of the capture-dereferencing loop of `create_forwarding_func`. -/
def readSeq (m : Mem) (base : Nat) : List Nat → List Nat
  | [] => []
  | w :: rest => mload m base w :: readSeq m (base + w) rest

/-- `examples/lowering-structs/types.rs` (and `struct-and-enum/types.rs`):
`enum Type { Int, Struct(Name) }`. -/
inductive Ty where
  | int : Ty
  | struct (name : String) : Ty
deriving Repr, DecidableEq

abbrev FieldList := List (String × Ty)

/-- `enum StructPassingMode { ByScalars, ByPointer }`. -/
inductive StructPassingMode where
  | ByScalars : StructPassingMode
  | ByPointer : StructPassingMode
deriving Repr, DecidableEq

/-- `examples/lowering-structs/types.rs`: `struct LookupTable`.  The two
hashmaps are modelled as association lists; `function_names` (FuncId to
name) is dropped because functions are identified by name directly. -/
structure LookupTable where
  struct_fields : List (String × FieldList)
  function_types : List (String × (List Ty × Ty))
  ptr_size : Nat

/-- One level of the flattening loop of `LookupTable::for_scalars` /
`for_scalars_of_struct` over a list of types, with the recursive descent
into a nested struct abstracted as `rec`.  The result is the list of byte
sizes of the scalar Cranelift types the visitor `f` would be called with,
in visit order; every scalar in this example is `I32` (4 bytes). -/
def flGo (lt : LookupTable) (rec : List Ty → Option (List Nat)) : List Ty → Option (List Nat)
  | [] => some []
  | .int :: rest => (flGo lt rec rest).map (fun l => 4 :: l)
  | .struct name :: rest =>
    match List.lookup name lt.struct_fields with
    | none => none
    | some fs =>
      match rec (fs.map Prod.snd), flGo lt rec rest with
      | some a, some b => some (a ++ b)
      | _, _ => none

/-- Fuel-indexed flattening of a list of types (the fuel bounds the
nesting depth of struct references; the source recursion is unbounded and
would diverge on a cyclic table). -/
def LookupTable.for_scalars_list (lt : LookupTable) : Nat → List Ty → Option (List Nat)
  | 0 => flGo lt (fun _ => none)
  | fuel + 1 => flGo lt (lt.for_scalars_list fuel)

/-- `LookupTable::for_scalars` on one type. -/
def LookupTable.for_scalars (lt : LookupTable) (fuel : Nat) (ty : Ty) : Option (List Nat) :=
  lt.for_scalars_list fuel [ty]

/-- `LookupTable::for_scalars_of_struct`: looks the struct up
(`expect("struct not found")` modelled as `none`) and flattens its
fields. -/
def LookupTable.for_scalars_of_struct (lt : LookupTable) (fuel : Nat) (name : String) :
    Option (List Nat) :=
  (List.lookup name lt.struct_fields).bind (fun fs => lt.for_scalars_list fuel (fs.map Prod.snd))

/-- `LookupTable::struct_passing_mode`: counts the flattened scalars and
returns `ByScalars` when `scalars < 3`. -/
def LookupTable.struct_passing_mode (lt : LookupTable) (fuel : Nat) (name : String) :
    Option StructPassingMode :=
  (lt.for_scalars_of_struct fuel name).map
    (fun l => if l.length < 3 then .ByScalars else .ByPointer)

/-- `LookupTable::size_of`: sums the byte sizes of the flattened scalars of
one type. -/
def LookupTable.size_of (lt : LookupTable) (fuel : Nat) (ty : Ty) : Option Nat :=
  (lt.for_scalars fuel ty).map List.sum

/-- `LookupTable::size_of_struct`. -/
def LookupTable.size_of_struct (lt : LookupTable) (fuel : Nat) (name : String) : Option Nat :=
  (lt.for_scalars_of_struct fuel name).map List.sum

/-- Helper for `offset_of_field`: walk the field list, summing the sizes of
the fields before the requested index; reaching the end of the list is the
`panic!("field not found")`. -/
def LookupTable.offsetAux (lt : LookupTable) (fuel : Nat) : FieldList → Nat → Option Nat
  | [], _ => none
  | _ :: _, 0 => some 0
  | f :: rest, k + 1 =>
    match lt.size_of fuel f.2, lt.offsetAux fuel rest k with
    | some s, some o => some (s + o)
    | _, _ => none

/-- `LookupTable::offset_of_field`: cumulative sum of the sizes of the
preceding fields (no padding). -/
def LookupTable.offset_of_field (lt : LookupTable) (fuel : Nat) (struct_ : String) (field : Nat) :
    Option Nat :=
  (List.lookup struct_ lt.struct_fields).bind (fun fs => lt.offsetAux fuel fs field)

/-- `LookupTable::type_of_field` (indexing panic modelled as `none`). -/
def LookupTable.type_of_field (lt : LookupTable) (struct_ : String) (field : Nat) : Option Ty :=
  (List.lookup struct_ lt.struct_fields).bind (fun fs => (fs[field]?).map Prod.snd)

/-- `LookupTable::return_type_of` (via `function_names` + `function_types`;
functions are identified by name here). -/
def LookupTable.return_type_of (lt : LookupTable) (fname : String) : Option Ty :=
  (List.lookup fname lt.function_types).map Prod.snd

/-- `LookupTable::hardcoded`. -/
def LookupTable.hardcoded (ptr_size : Nat) : LookupTable where
  struct_fields :=
    [("Player", [("id", .int), ("position", .struct "Point")]),
     ("Point", [("x", .int), ("y", .int)]),
     ("unit", [])]
  function_types :=
    [("main", ([], .int)),
     ("move_right", ([.struct "Player", .int], .struct "Player"))]
  ptr_size := ptr_size

/-- `examples/struct-and-enum/types.rs`: `struct TypeResolver`. -/
structure TypeResolver where
  struct_fields : List (String × FieldList)
  ptr_size : Nat

/-- One level of `TypeResolver::fold_scalars` / `fold_scalars_of_struct`
over a list of types; every scalar in that example is `I64` (8 bytes). -/
def foldGo (tr : TypeResolver) (rec : List Ty → Option (List Nat)) : List Ty → Option (List Nat)
  | [] => some []
  | .int :: rest => (foldGo tr rec rest).map (fun l => 8 :: l)
  | .struct name :: rest =>
    match List.lookup name tr.struct_fields with
    | none => none
    | some fs =>
      match rec (fs.map Prod.snd), foldGo tr rec rest with
      | some a, some b => some (a ++ b)
      | _, _ => none

/-- Fuel-indexed flattening for the struct-and-enum resolver. -/
def TypeResolver.fold_scalars_list (tr : TypeResolver) : Nat → List Ty → Option (List Nat)
  | 0 => foldGo tr (fun _ => none)
  | fuel + 1 => foldGo tr (tr.fold_scalars_list fuel)

/-- `TypeResolver::fold_scalars_of_struct`. -/
def TypeResolver.fold_scalars_of_struct (tr : TypeResolver) (fuel : Nat) (name : String) :
    Option (List Nat) :=
  (List.lookup name tr.struct_fields).bind (fun fs => tr.fold_scalars_list fuel (fs.map Prod.snd))

/-- `TypeResolver::struct_passing_mode`, translated as written in the
source: `if fold_scalars_of_struct(0, |n, _| n + 1, name) > 2 { ByScalars }
else { ByPointer }` — note the comparison direction. -/
def TypeResolver.struct_passing_mode (tr : TypeResolver) (fuel : Nat) (name : String) :
    Option StructPassingMode :=
  (tr.fold_scalars_of_struct fuel name).map
    (fun l => if 2 < l.length then .ByScalars else .ByPointer)

/-- `TypeResolver::hardcoded`. -/
def TypeResolver.hardcoded (ptr_size : Nat) : TypeResolver where
  struct_fields :=
    [("Player", [("id", .int), ("position", .struct "Point")]),
     ("Point", [("x", .int), ("y", .int)]),
     ("unit", [])]
  ptr_size := ptr_size

/-! ### struct-layouts (aligned policy)

`examples/struct-layouts/main.rs` works with plain lists of Cranelift
scalar types; a type is represented by its byte width (`I32 = 4`,
`I8 = 1`, `I16 = 2`).  A Rust `%` by zero panics, which is modelled by
`Option.none` in `alignPadding`. -/

/-- `(align - size % align) % align`, the padding the source computes;
`none` models the Rust division-by-zero panic when `align = 0`. -/
def alignPadding (size align : Nat) : Option Nat :=
  if align = 0 then none else some ((align - size % align) % align)

/-- `alignment_of_scalar_type`: the alignment of a scalar is its size. -/
def alignment_of_scalar_type (of : Nat) : Nat := of

/-- `alignment_of_struct`: the maximum field alignment (0 for no fields). -/
def alignment_of_struct (fields : List Nat) : Nat :=
  fields.foldl (fun alignment field => max alignment (alignment_of_scalar_type field)) 0

/-- `size_of_struct` of struct-layouts: for each field add its size and
then padding computed from that field's own alignment, finally pad the
total to the struct's alignment. -/
def size_of_struct (fields : List Nat) : Option Nat :=
  (fields.foldl
      (fun acc field =>
        acc.bind (fun size =>
          let size := size + field
          (alignPadding size (alignment_of_scalar_type field)).map (fun p => size + p)))
      (some 0)).bind
    (fun size =>
      (alignPadding size (alignment_of_struct fields)).map (fun p => size + p))

/-- `offset_of_field` of struct-layouts: for each *prior* field add its
size and then padding computed from that prior field's own alignment. -/
def offset_of_field (field : Nat) (fields : List Nat) : Option Nat :=
  (fields.take field).foldl
    (fun acc prior =>
      acc.bind (fun offset =>
        let offset := offset + prior
        (alignPadding offset (alignment_of_scalar_type prior)).map (fun p => offset + p)))
    (some 0)

/-- The field list of `LargeStruct` in struct-layouts
(`[types::I32, types::I8, types::I32, types::I16]`). -/
def large_struct_fields : List Nat := [4, 1, 4, 2]

/-- Per-field flattened sizes of a field list (used to state the C6 size
equation `size_of_struct = sum of the per-field sizes`). -/
def LookupTable.fieldSizes (lt : LookupTable) (fuel : Nat) : FieldList → Option (List Nat)
  | [] => some []
  | fl :: rest =>
    match lt.size_of fuel fl.2, lt.fieldSizes fuel rest with
    | some s, some l => some (s :: l)
    | _, _ => none

/-- A lookup table containing an aggregate `A` whose first field has the
zero-field `unit` aggregate type (flattened size 0), exercising the
zero-size-field corner of the no-padding offset computation. -/
def c6table : LookupTable where
  struct_fields := [("A", [("u", .struct "unit"), ("x", .int)]), ("unit", [])]
  function_types := []
  ptr_size := 8

/-- `examples/lowering-structs/main.rs` (and `struct-and-enum/main.rs`):
`enum VirtualValue { Scalar, StackStruct, UnstableStruct }`.  A Cranelift
`cl::Value` of a scalar is modelled by its runtime contents (a natural
number below `2^32`); a stack pointer by its address. -/
inductive VV where
  | Scalar (v : Nat)
  | StackStruct (type_ : String) (ptr : Nat)
  | UnstableStruct (type_ : String) (fields : List VV)

/-- `VirtualValue::unit()`: a `Unit` value is the `UnstableStruct` of the
zero-field aggregate `unit`. -/
def VV.unit : VV := .UnstableStruct "unit" []

/-- `VirtualValue::as_scalar` (panic on non-scalars modelled as `none`). -/
def VV.as_scalar : VV → Option Nat
  | .Scalar v => some v
  | _ => none

/-- The field-selection loop of `construct_struct` (identical in
`lowering-structs/lower.rs` and `struct-and-enum/lower.rs`): for every
*declared* field, `find_map` the first supplied pair with that name
(`expect("missing field in struct constructor")` modelled as `none`). -/
def build_fields : FieldList → List (String × VV) → Option (List VV)
  | [], _ => some []
  | d :: ds, fields =>
    match (List.find? (fun p => p.1 == d.1) fields).map Prod.snd, build_fields ds fields with
    | some v, some vs => some (v :: vs)
    | _, _ => none

/-- `FuncLower::construct_struct` (lowering-structs): validates the
declared fields against the supplied pairs and produces an
`UnstableStruct`; no instructions are emitted and no memory is touched. -/
def FuncLower.construct_struct (lt : LookupTable) (type_ : String)
    (fields : List (String × VV)) : Option VV :=
  (List.lookup type_ lt.struct_fields).bind
    (fun decl => (build_fields decl fields).map (fun vs => VV.UnstableStruct type_ vs))

/-- `Lower::construct_struct` (struct-and-enum): same code over the
`TypeResolver` table. -/
def Lower.construct_struct (tr : TypeResolver) (type_ : String)
    (fields : List (String × VV)) : Option VV :=
  (List.lookup type_ tr.struct_fields).bind
    (fun decl => (build_fields decl fields).map (fun vs => VV.UnstableStruct type_ vs))

/-! ### tagged-union-layouts

`examples/tagged-union-layouts/main.rs`.  A typed Cranelift value is a
pair of a byte width and runtime contents; the state of the machine during
the straight-line construction code is a memory plus the next free stack
address (`create_sized_stack_slot` hands out fresh, disjoint slots). -/

/-- A Cranelift value with its type: byte width `ty` and contents `val`
(well-formed when `val < 2^(8*ty)`). -/
structure TVal where
  ty : Nat
  val : Nat
deriving Repr, DecidableEq

/-- Machine state for the straight-line examples: memory and the next
fresh stack address. -/
structure MachSt where
  mem : Mem
  next : Nat

/-- `enum PayloadKind { InlineCasted(Type), Inline, Zero, StackPointer }`. -/
inductive PayloadKind where
  | InlineCasted (target : Nat)
  | Inline
  | Zero
  | StackPointer
deriving Repr, DecidableEq

/-- `payload_kind`: a single parameter is compared (`cmp`) against the
pointer width — smaller is inlined with a cast, equal is inlined verbatim,
larger is stack allocated; no parameters is a zero payload; several
parameters are stack allocated. -/
def payload_kind (size_t : Nat) (params : List Nat) : PayloadKind :=
  match params with
  | [param] =>
    if param < size_t then .InlineCasted param
    else if param = size_t then .Inline
    else .StackPointer
  | [] => .Zero
  | _ => .StackPointer

/-- Two's-complement sign extension of a `w`-byte value to `size_t` bytes
(the semantics of the backend `sextend` instruction emitted by
`construct_tagged_union`). -/
def sextend (size_t w v : Nat) : Nat :=
  if v < 2 ^ (8 * w - 1) then v else v + (2 ^ (8 * size_t) - 2 ^ (8 * w))

/-- Truncation of a value to `target` bytes (the semantics of the backend
`ireduce` instruction emitted by `read_payload`). -/
def ireduce (target v : Nat) : Nat := v % 2 ^ (8 * target)

/-- `stack_alloc_payload`: allocate a slot of the summed field sizes
(no alignment, no padding), store each field at its cumulative offset in
declared order, return the slot's address. -/
def stack_alloc_payload (st : MachSt) (params : List TVal) : MachSt × Nat :=
  let size := (params.map TVal.ty).sum
  (⟨writeSeq st.mem st.next (params.map (fun p => (p.ty, p.val))), st.next + size⟩, st.next)

/-- `construct_tagged_union`: compute the payload according to
`payload_kind` of the parameter types and return the (tag, payload) pair;
the `params[0]` indexing of the source is modelled with `head?`. -/
def construct_tagged_union (size_t : Nat) (st : MachSt) (tag : Int) (params : List TVal) :
    Option (MachSt × Int × Nat) :=
  let param_types := params.map TVal.ty
  match payload_kind size_t param_types with
  | .InlineCasted _ => (params.head?).map (fun p => (st, tag, sextend size_t p.ty p.val))
  | .Inline => (params.head?).map (fun p => (st, tag, p.val))
  | .Zero => some (st, tag, 0)
  | .StackPointer =>
    let stp := stack_alloc_payload st params
    some (stp.1, tag, stp.2)

/-- `read_payload`: re-derive the encoding from the declared parameter
types and read the fields back — reduce the inline-casted payload, use the
inline payload as-is, produce zeros for the zero payload, and load the
fields of an indirect payload at their cumulative offsets. -/
def read_payload (size_t : Nat) (m : Mem) (payload : Nat) (param_types : List Nat) : List Nat :=
  match payload_kind size_t param_types with
  | .InlineCasted target => param_types.map (fun _ => ireduce target payload)
  | .Inline => param_types.map (fun _ => payload)
  | .Zero => param_types.map (fun _ => 0)
  | .StackPointer => readSeq m payload param_types

/-! ### The tagged-union dispatch of `main` (jump table and trap block)

A small model of the instruction emission of
`examples/tagged-union-layouts/main.rs` lines 95-163: blocks hold
instruction lists, `create_block` appends an empty block, `emit` appends
an instruction to the current block, and jump tables are recorded as
(default target, targets).  Instruction operands that play no role in the
dispatch structure (value ids) are omitted. -/

inductive TInstr where
  | iconst (v : Int)
  | br_table (table : Nat)
  | iadd
  | load
  | ireduceOp
  | ret
  | trap (code : Nat)
deriving Repr, DecidableEq

/-- `JumpTableData::new(trap, &branches)`: default target plus one target
per case. -/
structure JumpTableData where
  default_target : Nat
  targets : List Nat
deriving Repr, DecidableEq

/-- Function-builder state: per-block instruction lists, the current
block, and the created jump tables. -/
structure FnB where
  blocks : List (List TInstr)
  cur : Nat
  tables : List JumpTableData
deriving Repr, DecidableEq

def create_block (b : FnB) : FnB × Nat :=
  ({ b with blocks := b.blocks ++ [[]] }, b.blocks.length)

def switch_to_block (b : FnB) (blk : Nat) : FnB := { b with cur := blk }

def emit (b : FnB) (i : TInstr) : FnB :=
  { b with blocks := b.blocks.set b.cur ((b.blocks.getD b.cur []) ++ [i]) }

def emits (b : FnB) (l : List TInstr) : FnB := l.foldl emit b

def create_jump_table (b : FnB) (t : JumpTableData) : FnB × Nat :=
  ({ b with tables := b.tables ++ [t] }, b.tables.length)

/-- The instructions `read_payload` emits for a branch block, per encoding
case (a reduce for the inline-casted case, nothing for the inline case, a
zero constant for the zero case, one load per field for the indirect
case). -/
def read_payload_instrs (size_t : Nat) (param_types : List Nat) : List TInstr :=
  match payload_kind size_t param_types with
  | .InlineCasted _ => param_types.map (fun _ => .ireduceOp)
  | .Inline => []
  | .Zero => param_types.map (fun _ => .iconst 0)
  | .StackPointer => param_types.map (fun _ => .load)

/-- The declared variant tags of `Packet`, in tag order:
`TAG_PACKET_PENDING = 0`, `TAG_PACKET_DATA = 1`, `TAG_PACKET_FAILED = 2`. -/
def packet_tags : List Nat := [0, 1, 2]

/-- The `match matched { ... }` lowering of `main` (lines 95-163): create
one branch block per declared variant by mapping over the tags, create the
default block, create the jump table `(trap, branches)`, terminate the
entry block with `br_table`, fill each branch block (`Pending` returns 10;
`Data` reads its three-`I32` payload and returns the sum; `Failed` reads
its one-`I32` payload and returns it), and fill the default block with a
single `trap` instruction. -/
def lower_packet_match (size_t : Nat) (fb : FnB) : FnB :=
  let res := packet_tags.foldl
    (fun (acc : FnB × List Nat) _ =>
      let cb := create_block acc.1
      (cb.1, acc.2 ++ [cb.2]))
    (fb, [])
  let fb := res.1
  let branches := res.2
  let cbtrap := create_block fb
  let fb := cbtrap.1
  let trapb := cbtrap.2
  let cjt := create_jump_table fb ⟨trapb, branches⟩
  let fb := cjt.1
  let table := cjt.2
  let fb := emit fb (.br_table table)
  let fb := switch_to_block fb (branches.getD 0 0)
  let fb := emit fb (.iconst 10)
  let fb := emit fb .ret
  let fb := switch_to_block fb (branches.getD 1 0)
  let fb := emits fb (read_payload_instrs size_t [4, 4, 4])
  let fb := emit fb .iadd
  let fb := emit fb .iadd
  let fb := emit fb .ret
  let fb := switch_to_block fb (branches.getD 2 0)
  let fb := emits fb (read_payload_instrs size_t [4])
  let fb := emit fb .ret
  let fb := switch_to_block fb trapb
  emit fb (.trap 100)

/-- Modelled from the spec: the jump-table dispatch itself is a backend
(Cranelift `br_table`) primitive, outside this repository — "a multi-way
branch (jump table) keyed by the tag's integer value, one target block per
declared variant in tag order, plus one default/trap target for impossible
tags": the tag indexes the target list, and any tag outside the table
goes to the default target. -/
def br_table_target (t : JumpTableData) (tag : Nat) : Nat :=
  match t.targets[tag]? with
  | some blk => blk
  | none => t.default_target

/-- A builder holding only the (current) entry block. -/
def entry_builder : FnB := ⟨[[]], 0, []⟩

/-! ### closures

`examples/closures/main.rs`.  A declared function is modelled by its
runtime semantics (memory and argument list to result list); the module's
declared functions form an association list, so that the indirect call
through a closure's code pointer resolves the forwarding function that
`construct_closure` declared. -/

/-- Runtime semantics of a declared function. -/
def FuncSem : Type := Mem → List Nat → List Nat

/-- 32-bit wrapping add (`iadd` on `I32`). -/
def iadd32 (a b : Nat) : Nat := (a + b) % 2 ^ 32

/-- `fn f0(a: int, x: int) -> int { a + x + 1 }` (`f0_real_function`). -/
def f0_real_function : FuncSem := fun _ args =>
  match args with
  | [a, x] => [iadd32 (iadd32 a x) 1]
  | _ => []

/-- `fn f1(a: int, b: int, x: int) -> int { a + x + b }`
(`f1_real_function`). -/
def f1_real_function : FuncSem := fun _ args =>
  match args with
  | [a, b, x] => [iadd32 (iadd32 a x) b]
  | _ => []

abbrev ModuleFns : Type := List (String × FuncSem)

/-- `struct Closure { data, func, sig }`: capture-box pointer, code
pointer (the forwarding function's symbol), and the recorded signature's
parameter widths. -/
structure Closure where
  data : Nat
  func : String
  sig_params : List Nat

/-- `stack_alloc_captures`: allocate the summed capture sizes (no
alignment, no padding) and store each capture at its cumulative offset. -/
def stack_alloc_captures (st : MachSt) (captures : List TVal) : MachSt × Nat :=
  let size := (captures.map TVal.ty).sum
  (⟨writeSeq st.mem st.next (captures.map (fun c => (c.ty, c.val))), st.next + size⟩, st.next)

/-- The body that `create_forwarding_func` defines: load each capture from
the leading untyped pointer at its cumulative offset, then call the real
body function with (captures..., forwarded parameters...). -/
def forwarding_sem (captys : List Nat) (fsem : FuncSem) : FuncSem := fun mem args =>
  match args with
  | ptr :: rest => fsem mem (readSeq mem ptr captys ++ rest)
  | [] => []

/-- `create_forwarding_func`: declare `closure_forward_{f}` with the body
function's signature whose leading capture parameters are replaced by one
pointer parameter, and define its forwarding body. -/
def create_forwarding_func (mod : ModuleFns) (fname : String) (fsem : FuncSem)
    (captys : List Nat) (size_t : Nat) (real_params : List Nat) :
    ModuleFns × String × List Nat :=
  let symbol := "closure_forward_" ++ fname
  let sig_params := size_t :: real_params.drop captys.length
  (mod ++ [(symbol, forwarding_sem captys fsem)], symbol, sig_params)

/-- `construct_closure`: box the captures, synthesize the forwarding
function, and pair its address with the capture box. -/
def construct_closure (mod : ModuleFns) (st : MachSt) (fname : String) (fsem : FuncSem)
    (real_params : List Nat) (captures : List TVal) (size_t : Nat) :
    ModuleFns × MachSt × Closure :=
  let sa := stack_alloc_captures st captures
  let cf := create_forwarding_func mod fname fsem (captures.map TVal.ty) size_t real_params
  (cf.1, sa.1, ⟨sa.2, cf.2.1, cf.2.2⟩)

/-- `Closure::call`: an indirect call through the closure's code pointer,
passing the data pointer as the implicit leading argument followed by the
explicit arguments (`real_params = vec![self.data]; extend(params)`). -/
def Closure.call (c : Closure) (mod : ModuleFns) (st : MachSt) (params : List Nat) :
    Option (List Nat) :=
  (List.lookup c.func mod).map (fun f => f st.mem (c.data :: params))

/-- The closure part of `main`: `a = 1; b = 2; x = 3;
f0 = closure over f0_real_function capturing [a];
f1 = closure over f1_real_function capturing [a, b];
t = f0(x); u = f1(x)`; result `(t, u)`. -/
def closures_main : Option (Nat × Nat) :=
  let a := 1
  let b := 2
  let x := 3
  let st : MachSt := ⟨memZero, 0⟩
  let mod : ModuleFns := []
  let c0 := construct_closure mod st "f0_real_function" f0_real_function [4, 4]
    [⟨4, a⟩] 8
  let c1 := construct_closure c0.1 c0.2.1 "f1_real_function" f1_real_function [4, 4, 4]
    [⟨4, a⟩, ⟨4, b⟩] 8
  match Closure.call c0.2.2 c1.1 c1.2.1 [x], Closure.call c1.2.2 c1.1 c1.2.1 [x] with
  | some [t], some [u] => some (t, u)
  | _, _ => none

/-! ### FuncLower (lowering-structs)

`examples/lowering-structs/lower.rs`.  The emission of straight-line
instructions is fused with their runtime semantics: the state carries the
byte memory, the next fresh stack address, and the trace of emitted
instructions; a `load` instruction returns the loaded value, a `store`
writes memory, `iadd_imm ptr off` returns `ptr + off`, `stack_addr` hands
out the fresh slot address.  Two fuel parameters appear below: `tf`
bounds descents through the type table (as in the resolver above) and the
other fuel bounds the depth of a `VirtualValue` tree; the source performs
both recursions unboundedly.  `Type::Unit` match arms of the source are
unreachable for the `Type` enum of `types.rs` (it has only `Int` and
`Struct`; the unit aggregate is the zero-field struct `"unit"`), so they
have no counterpart here. -/

/-- Trace entries for emitted instructions.  Operands are runtime values
(addresses and contents), matching the fused emission/execution model. -/
inductive Instr where
  | iconst (v : Nat)
  | iadd_imm (src off : Nat)
  | load (addr : Nat)
  | store (addr val : Nat)
  | stack_addr (base : Nat)
  | call (fname : String) (args : List Nat)
  | ret (vals : List Nat)
deriving Repr, DecidableEq

/-- Lowering state: memory, next fresh stack address, instruction trace. -/
structure St where
  mem : Mem
  next : Nat
  trace : List Instr

/-- `FuncLower::stack_alloc_struct`: create a slot of the struct's size
and return its address as a pointer value. -/
def stack_alloc_struct (lt : LookupTable) (tf : Nat) (st : St) (name : String) :
    Option (St × Nat) :=
  (lt.size_of_struct tf name).map (fun size =>
    ({ mem := st.mem, next := st.next + size, trace := st.trace ++ [.stack_addr st.next] },
     st.next))

/-- `FuncLower::destruct_field`: a scalar cannot be destructured (fatal);
from a `StackStruct`, a nested-aggregate field is a pointer advance
(`iadd_imm`) and a scalar field is a load at the field's offset; from an
`UnstableStruct`, the stored sub-value is returned with no instruction
emitted. -/
def destruct_field (lt : LookupTable) (tf : Nat) (st : St) (of : VV) (field : Nat) :
    Option (St × VV) :=
  match of with
  | .Scalar _ => none
  | .StackStruct type_ ptr =>
    match lt.offset_of_field tf type_ field, lt.type_of_field type_ field with
    | some offset, some fty =>
      (match fty with
       | .struct t =>
         some ({ st with trace := st.trace ++ [.iadd_imm ptr offset] },
           .StackStruct t (ptr + offset))
       | .int =>
         some ({ st with trace := st.trace ++ [.load (ptr + offset)] },
           .Scalar (mload st.mem (ptr + offset) 4)))
    | _, _ => none
  | .UnstableStruct _ fields => (fields[field]?).map (fun v => (st, v))

/-- Loop of `FuncLower::copy_struct_fields` over the field list (`rec` is
the recursive call for nested structs): a scalar field is loaded from the
source offset and stored at the destination offset; a nested struct
advances both pointers and recurses. -/
def copyGo (lt : LookupTable) (f : Nat) (rec : St → String → Nat → Nat → Option St) :
    St → String → FieldList → Nat → Nat → Nat → Option St
  | st, _, [], _, _, _ => some st
  | st, type_, (_, fty) :: rest, i, src, dst =>
    match lt.offset_of_field f type_ i with
    | none => none
    | some offset =>
      match fty with
      | .int =>
        let v := mload st.mem (src + offset) 4
        copyGo lt f rec
          { mem := mstore st.mem (dst + offset) 4 v, next := st.next,
            trace := st.trace ++ [.load (src + offset), .store (dst + offset) v] }
          type_ rest (i + 1) src dst
      | .struct t =>
        match rec { st with trace := st.trace ++ [.iadd_imm src offset, .iadd_imm dst offset] }
            t (src + offset) (dst + offset) with
        | none => none
        | some st2 => copyGo lt f rec st2 type_ rest (i + 1) src dst

/-- `FuncLower::copy_struct_fields`. -/
def copy_struct_fields (lt : LookupTable) : Nat → St → String → Nat → Nat → Option St
  | 0, _, _, _, _ => none
  | f + 1, st, type_, src, dst =>
    match List.lookup type_ lt.struct_fields with
    | none => none
    | some fields => copyGo lt f (copy_struct_fields lt f) st type_ fields 0 src dst

/-- Loop of the `UnstableStruct` case of `FuncLower::write_struct_field`:
for each sub-field, re-emit `nptr = iadd_imm(ptr, offset)` and write the
sub-field through `nptr`. -/
def writeGo (recW : St → String → Nat → Nat → VV → Option St) :
    St → String → List VV → Nat → Nat → Nat → Option St
  | st, _, [], _, _, _ => some st
  | st, type_, v :: rest, i, ptr, offset =>
    match recW { st with trace := st.trace ++ [.iadd_imm ptr offset] } type_ i (ptr + offset) v with
    | none => none
    | some st2 => writeGo recW st2 type_ rest (i + 1) ptr offset

/-- `FuncLower::write_struct_field` (`tf` is the table fuel used for
offsets and for `copy_struct_fields`; the structural fuel bounds the
`VirtualValue` depth): a scalar is stored at the field offset, an
`UnstableStruct` recurses per sub-field, a `StackStruct` is bulk-copied
field-by-field into the destination offset. -/
def write_struct_field (lt : LookupTable) (tf : Nat) :
    Nat → St → String → Nat → Nat → VV → Option St
  | 0, _, _, _, _, _ => none
  | f + 1, st, name, field, ptr, v =>
    match lt.offset_of_field tf name field with
    | none => none
    | some offset =>
      match v with
      | .Scalar value =>
        some { mem := mstore st.mem (ptr + offset) 4 value, next := st.next,
               trace := st.trace ++ [.store (ptr + offset) value] }
      | .UnstableStruct type_ fields =>
        writeGo (write_struct_field lt tf f) st type_ fields 0 ptr offset
      | .StackStruct src_type src_ptr =>
        copy_struct_fields lt tf { st with trace := st.trace ++ [.iadd_imm ptr offset] }
          src_type src_ptr (ptr + offset)

/-- The materialization loop shared by the `ByPointer` branches of
`virtual_value_to_func_params` (lower.rs 124-128) and `return_`
(lower.rs 277-282): write every field of an `UnstableStruct` through the
destination pointer, in declared order. -/
def writeAllGo (recW : St → String → Nat → Nat → VV → Option St) :
    St → String → List VV → Nat → Nat → Option St
  | st, _, [], _, _ => some st
  | st, type_, v :: rest, i, ptr =>
    match recW st type_ i ptr v with
    | none => none
    | some st2 => writeAllGo recW st2 type_ rest (i + 1) ptr

def write_all_fields (lt : LookupTable) (tf vf : Nat) (st : St) (type_ : String)
    (fields : List VV) (ptr : Nat) : Option St :=
  writeAllGo (write_struct_field lt tf vf) st type_ fields 0 ptr

/-- Materializing an `UnstableStruct` to the stack (the `ByPointer` branch
of `virtual_value_to_func_params`): allocate a slot, write every field. -/
def materialize (lt : LookupTable) (tf vf : Nat) (st : St) (type_ : String)
    (fields : List VV) : Option (St × Nat) :=
  match stack_alloc_struct lt tf st type_ with
  | none => none
  | some (st2, ptr) =>
    match write_all_fields lt tf vf st2 type_ fields ptr with
    | none => none
    | some st3 => some (st3, ptr)

/-- Loop of `FuncLower::deref_fields` (`rec` recurses into nested structs
with the accumulated offset): scalars are loaded at
`offset_of_field + src_offset` and appended to the buffer. -/
def derefGo (lt : LookupTable) (f : Nat)
    (rec : St → String → Nat → Nat → Option (St × List Nat)) :
    St → String → FieldList → Nat → Nat → Nat → Option (St × List Nat)
  | st, _, [], _, _, _ => some (st, [])
  | st, type_, (_, fty) :: rest, i, src, src_offset =>
    match lt.offset_of_field f type_ i with
    | none => none
    | some off =>
      match (match fty with
             | .int =>
               some ({ st with trace := st.trace ++ [Instr.load (src + (off + src_offset))] },
                 [mload st.mem (src + (off + src_offset)) 4])
             | .struct t => rec st t src (off + src_offset)) with
      | none => none
      | some (st2, xs) =>
        match derefGo lt f rec st2 type_ rest (i + 1) src src_offset with
        | none => none
        | some (st3, ys) => some (st3, xs ++ ys)

/-- `FuncLower::deref_fields`. -/
def deref_fields (lt : LookupTable) : Nat → St → String → Nat → Nat → Option (St × List Nat)
  | 0, _, _, _, _ => none
  | f + 1, st, type_, src, src_offset =>
    match List.lookup type_ lt.struct_fields with
    | none => none
    | some fields => derefGo lt f (deref_fields lt f) st type_ fields 0 src src_offset

/-- Fold of `virtual_values_to_func_params` over a value list. -/
def vvParamsGo (rec : St → List Nat → VV → Option (St × List Nat)) :
    St → List Nat → List VV → Option (St × List Nat)
  | st, buf, [] => some (st, buf)
  | st, buf, v :: vs =>
    match rec st buf v with
    | none => none
    | some (st2, buf2) => vvParamsGo rec st2 buf2 vs

/-- One step of `FuncLower::virtual_value_to_func_params` (`buf` is the
call-parameter buffer): scalars are pushed; a `StackStruct` is flattened
with loads (`ByScalars`) or passed as its pointer (`ByPointer`); an
`UnstableStruct` is flattened recursively (`ByScalars`) or materialized to
a fresh slot whose address is pushed (`ByPointer`). -/
def vv_to_func_params (lt : LookupTable) (tf : Nat) :
    Nat → St → List Nat → VV → Option (St × List Nat)
  | _, st, buf, .Scalar value => some (st, buf ++ [value])
  | _, st, buf, .StackStruct type_ src =>
    match lt.struct_passing_mode tf type_ with
    | some .ByScalars =>
      match deref_fields lt tf st type_ src 0 with
      | none => none
      | some (st2, vs) => some (st2, buf ++ vs)
    | some .ByPointer => some (st, buf ++ [src])
    | none => none
  | 0, _, _, .UnstableStruct _ _ => none
  | f + 1, st, buf, .UnstableStruct type_ fields =>
    match lt.struct_passing_mode tf type_ with
    | some .ByScalars => vvParamsGo (vv_to_func_params lt tf f) st buf fields
    | some .ByPointer =>
      match materialize lt tf (f + 1) st type_ fields with
      | none => none
      | some (st2, ptr) => some (st2, buf ++ [ptr])
    | none => none

def vvs_to_func_params (lt : LookupTable) (tf vf : Nat) (st : St) (buf : List Nat)
    (params : List VV) : Option (St × List Nat) :=
  vvParamsGo (vv_to_func_params lt tf vf) st buf params

/-- Field loop of `type_to_virtual_value` (consuming result registers). -/
def ttvGo (rec : Bool → Ty → List Nat → Option (VV × List Nat)) :
    FieldList → List Nat → Option (List VV × List Nat)
  | [], regs => some ([], regs)
  | d :: ds, regs =>
    match rec false d.2 regs with
    | none => none
    | some (v, regs2) =>
      match ttvGo rec ds regs2 with
      | none => none
      | some (vs, regs3) => some (v :: vs, regs3)

/-- `FuncLower::type_to_virtual_value`, with the value source `f`
reified as a register list consumed in visit order (in `call_func` it is
the backend call's result list). -/
def type_to_virtual_value (lt : LookupTable) (tf : Nat) :
    Nat → Bool → Ty → List Nat → Option (VV × List Nat)
  | _, _, .int, r :: rest => some (.Scalar r, rest)
  | _, _, .int, [] => none
  | 0, _, .struct _, _ => none
  | f + 1, is_root, .struct type_, regs =>
    if is_root && (lt.struct_passing_mode tf type_ == some .ByPointer) then
      match regs with
      | ptr :: rest => some (.StackStruct type_ ptr, rest)
      | [] => none
    else
      match List.lookup type_ lt.struct_fields with
      | none => none
      | some fields =>
        match ttvGo (type_to_virtual_value lt tf f) fields regs with
        | none => none
        | some (vs, rest) => some (.UnstableStruct type_ vs, rest)

/-- The out-pointer preparation at the top of `FuncLower::call_func`: for
a `ByPointer` struct return, allocate destination stack space in the
caller's frame, seed the call-parameter buffer with its address, and
remember the pointer as the call's eventual result value. -/
def call_ret_prep (lt : LookupTable) (tf : Nat) (st : St) (ret : Ty) :
    Option (St × List Nat × Option VV) :=
  match ret with
  | .struct name =>
    match lt.struct_passing_mode tf name with
    | some .ByPointer =>
      (stack_alloc_struct lt tf st name).map
        (fun sp => (sp.1, [sp.2], some (VV.StackStruct name sp.2)))
    | some .ByScalars => some (st, [], none)
    | none => none
  | .int => some (st, [], none)

/-- `FuncLower::call_func`: for a `ByPointer` struct return, pre-allocate
destination stack space and pass its address as the leading call argument
before the declared arguments; the call's result is then that pointer as a
`StackStruct`, not the backend call's result list (`oracle` stands for the
backend call's results, consumed only on the register path). -/
def call_func (lt : LookupTable) (tf vf : Nat) (st : St) (fname : String)
    (params : List VV) (oracle : List Nat) : Option (St × VV) :=
  match lt.return_type_of fname with
  | none => none
  | some ret =>
    match call_ret_prep lt tf st ret with
    | none => none
    | some (st1, buf0, out_ptr_return) =>
      match vvs_to_func_params lt tf vf st1 buf0 params with
      | none => none
      | some (st2, call_params) =>
        let st3 := { st2 with trace := st2.trace ++ [.call fname call_params] }
        match out_ptr_return with
        | some vv => some (st3, vv)
        | none =>
          match type_to_virtual_value lt tf vf false ret oracle with
          | none => none
          | some (v, _) => some (st3, v)

/-- `VirtualValue::as_scalar` over a list (the `ByScalars` return of an
`UnstableStruct`). -/
def asScalarsGo : List VV → Option (List Nat)
  | [] => some []
  | v :: vs =>
    match v.as_scalar, asScalarsGo vs with
    | some n, some l => some (n :: l)
    | _, _ => none

/-- `FuncLower::return_` (`sret` is the current function's struct-return
special parameter, `none` when absent): scalars return directly; a
`ByScalars` struct is flattened into the return values; a `ByPointer`
struct is copied (from a stack pointer) or written field-by-field (from an
unstable value) through the struct-return pointer, and the function
returns no values. -/
def return_ (lt : LookupTable) (tf vf : Nat) (sret : Option Nat) (st : St) (vv : VV) :
    Option St :=
  match vv with
  | .Scalar value => some { st with trace := st.trace ++ [.ret [value]] }
  | .StackStruct type_ src =>
    match lt.struct_passing_mode tf type_ with
    | some .ByScalars =>
      match deref_fields lt tf st type_ src 0 with
      | none => none
      | some (st2, buf) => some { st2 with trace := st2.trace ++ [.ret buf] }
    | some .ByPointer =>
      match sret with
      | none => none
      | some dst =>
        match copy_struct_fields lt tf st type_ src dst with
        | none => none
        | some st2 => some { st2 with trace := st2.trace ++ [.ret []] }
    | none => none
  | .UnstableStruct type_ fields =>
    match lt.struct_passing_mode tf type_ with
    | some .ByScalars =>
      match asScalarsGo fields with
      | none => none
      | some vals => some { st with trace := st.trace ++ [.ret vals] }
    | some .ByPointer =>
      match sret with
      | none => none
      | some dst =>
        match write_all_fields lt tf vf st type_ fields dst with
        | none => none
        | some st2 => some { st2 with trace := st2.trace ++ [.ret []] }
    | none => none

/-! ### Observation and well-formedness predicates for Virtual Values -/

/-- Loop of `readStruct` over a field list (`rec` recurses into nested
structs): the pure observation of a stack-resident aggregate, reading each
scalar field at exactly the offsets `deref_fields`/`destruct_field` use. -/
def readGo (lt : LookupTable) (f : Nat) (rec : Mem → String → Nat → Option (List Nat)) :
    Mem → String → FieldList → Nat → Nat → Option (List Nat)
  | _, _, [], _, _ => some []
  | m, type_, (_, fty) :: rest, i, base =>
    match lt.offset_of_field f type_ i with
    | none => none
    | some off =>
      match (match fty with
             | .int => some [mload m (base + off) 4]
             | .struct t => rec m t (base + off)) with
      | none => none
      | some xs =>
        match readGo lt f rec m type_ rest (i + 1) base with
        | none => none
        | some ys => some (xs ++ ys)

/-- Pure observation of a stack-resident aggregate: the flattened scalar
values at their field offsets. -/
def readStruct (lt : LookupTable) : Nat → Mem → String → Nat → Option (List Nat)
  | 0, _, _, _ => none
  | f + 1, m, type_, base =>
    match List.lookup type_ lt.struct_fields with
    | none => none
    | some fields => readGo lt f (readStruct lt f) m type_ fields 0 base

/-- Option-append fold used by `obs` over sub-value lists. -/
def obsGo (rec : VV → Option (List Nat)) : List VV → Option (List Nat)
  | [] => some []
  | v :: vs =>
    match rec v, obsGo rec vs with
    | some a, some b => some (a ++ b)
    | _, _ => none

/-- Observation of a `VirtualValue`: its flattened scalar contents — a
scalar is itself, a `StackStruct` is read from memory at its field
offsets, an `UnstableStruct` is the concatenation of its fields'
observations.  This is the observable-equality relation of the round-trip
claims. -/
def obs (lt : LookupTable) (m : Mem) : Nat → VV → Option (List Nat)
  | _, .Scalar n => some [n]
  | f, .StackStruct t p => readStruct lt (f + 1) m t p
  | 0, .UnstableStruct _ _ => none
  | f + 1, .UnstableStruct _ fields => obsGo (obs lt m f) fields

/-- Per-field observations of a field-value list. -/
def obsFieldsGo (rec : VV → Option (List Nat)) : List VV → Option (List (List Nat))
  | [] => some []
  | v :: vs =>
    match rec v, obsFieldsGo rec vs with
    | some a, some b => some (a :: b)
    | _, _ => none

def obsFields (lt : LookupTable) (m : Mem) (f : Nat) (vs : List VV) :
    Option (List (List Nat)) :=
  obsFieldsGo (obs lt m f) vs

/-- Loop of `conform` over declared fields and values. -/
def confGo (rec : Ty → VV → Bool) : FieldList → List VV → Bool
  | [], [] => true
  | d :: ds, v :: vs => rec d.2 v && confGo rec ds vs
  | _, _ => false

/-- Shape conformance of a `VirtualValue` to a declared type: scalars are
32-bit values for `Int`; a `StackStruct`/`UnstableStruct` carries exactly
the declared aggregate (with conformant sub-values, resp. a resolvable
scalar flattening). -/
def conform (lt : LookupTable) : Nat → Ty → VV → Bool
  | _, .int, .Scalar n => decide (n < 2 ^ 32)
  | f, .struct name, .StackStruct t _ => name == t && (lt.for_scalars_of_struct f t).isSome
  | f + 1, .struct name, .UnstableStruct t fields =>
    name == t
      && (match List.lookup name lt.struct_fields with
          | some decl => confGo (conform lt f) decl fields
          | none => false)
  | _, _, _ => false

/-- Loop of `vvBelow` over sub-values. -/
def belowGo (rec : VV → Bool) : List VV → Bool
  | [] => true
  | v :: vs => rec v && belowGo rec vs

/-- Every stack region referenced by the value lies below address `B`
(in particular below the next fresh slot, so fresh allocations are
disjoint from it). -/
def vvBelow (lt : LookupTable) (B : Nat) : Nat → VV → Bool
  | _, .Scalar _ => true
  | f, .StackStruct t p =>
    match lt.size_of_struct f t with
    | some s => decide (p + s ≤ B)
    | none => false
  | 0, .UnstableStruct _ _ => false
  | f + 1, .UnstableStruct _ fields => belowGo (vvBelow lt B f) fields

/-- Consecutive 4-byte word reads: the contents of `cnt` `I32` scalars
laid out contiguously from `base` (every scalar of lowering-structs is an
`I32`, and under the no-padding policy field offsets are 4 times the
number of preceding flattened scalars). -/
def wordReads (m : Mem) : Nat → Nat → List Nat
  | _, 0 => []
  | base, cnt + 1 => mload m base 4 :: wordReads m (base + 4) cnt

/-! ## Theorems -/

theorem mstore_eq_of_lt (m : Mem) (addr w v a : Nat) (h : a < addr) :
    mstore m addr w v a = m a := by
  simp only [mstore]
  rw [if_neg]
  intro hc
  omega

theorem mstore_eq_of_ge (m : Mem) (addr w v a : Nat) (h : addr + w ≤ a) :
    mstore m addr w v a = m a := by
  simp only [mstore]
  rw [if_neg]
  intro hc
  omega

theorem mstore_eq_of_mem (m : Mem) (addr w v a : Nat) (h1 : addr ≤ a) (h2 : a < addr + w) :
    mstore m addr w v a = v / 2 ^ (8 * (a - addr)) % 256 := by
  simp only [mstore]
  rw [if_pos ⟨h1, h2⟩]

theorem mload_congr (m1 m2 : Mem) (addr w : Nat)
    (h : ∀ i, i < w → m1 (addr + i) = m2 (addr + i)) :
    mload m1 addr w = mload m2 addr w := by
  induction w generalizing addr with
  | zero => rfl
  | succ w ih =>
    simp only [mload]
    have h0 := h 0 (by omega)
    rw [Nat.add_zero] at h0
    rw [h0]
    congr 2
    apply ih
    intro i hi
    have h2 := h (i + 1) (by omega)
    rw [show addr + (i + 1) = addr + 1 + i by omega] at h2
    exact h2

theorem mload_mstore_disjoint (m : Mem) (addr w b w2 v : Nat)
    (h : addr + w ≤ b ∨ b + w2 ≤ addr) :
    mload (mstore m b w2 v) addr w = mload m addr w := by
  apply mload_congr
  intro i hi
  rcases h with h | h
  · exact mstore_eq_of_lt m b w2 v (addr + i) (by omega)
  · exact mstore_eq_of_ge m b w2 v (addr + i) (by omega)

theorem mload_mstore_same (m : Mem) (addr w v : Nat) (h : v < 2 ^ (8 * w)) :
    mload (mstore m addr w v) addr w = v := by
  induction w generalizing m addr v with
  | zero =>
    simp only [mload]
    omega
  | succ w ih =>
    simp only [mload]
    have hhead : mstore m addr (w + 1) v addr = v % 256 := by
      rw [mstore_eq_of_mem m addr (w + 1) v addr (le_refl _) (by omega)]
      simp
    rw [hhead]
    have htail : mload (mstore m addr (w + 1) v) (addr + 1) w
        = mload (mstore m (addr + 1) w (v / 256)) (addr + 1) w := by
      apply mload_congr
      intro i hi
      rw [mstore_eq_of_mem m addr (w + 1) v (addr + 1 + i) (by omega) (by omega)]
      rw [mstore_eq_of_mem m (addr + 1) w (v / 256) (addr + 1 + i) (by omega) (by omega)]
      rw [show addr + 1 + i - addr = i + 1 by omega, show addr + 1 + i - (addr + 1) = i by omega]
      rw [Nat.div_div_eq_div_mul]
      congr 2
      rw [show 8 * (i + 1) = 8 + 8 * i by ring, pow_add]
      norm_num
    have hlt : v / 256 < 2 ^ (8 * w) := by
      have h2 : v < 2 ^ (8 * w) * 256 := by
        rw [show (256 : Nat) = 2 ^ 8 by norm_num, ← pow_add]
        rw [show 8 * w + 8 = 8 * (w + 1) by ring]
        exact h
      omega
    rw [htail, ih m (addr + 1) (v / 256) hlt]
    have h3 : v % 256 % 256 = v % 256 := Nat.mod_mod_of_dvd v (dvd_refl 256)
    have h4 := Nat.mod_add_div v 256
    omega

theorem mload_lt (m : Mem) (addr w : Nat) : mload m addr w < 2 ^ (8 * w) := by
  induction w generalizing addr with
  | zero => simp [mload]
  | succ w ih =>
    simp only [mload]
    have h1 : m addr % 256 < 256 := Nat.mod_lt _ (by norm_num)
    have h2 : mload m (addr + 1) w < 2 ^ (8 * w) := ih (addr + 1)
    have h3 : (2 : Nat) ^ (8 * (w + 1)) = 256 * 2 ^ (8 * w) := by
      rw [show 8 * (w + 1) = 8 + 8 * w by ring, pow_add]
      norm_num
    rw [h3]
    calc m addr % 256 + 256 * mload m (addr + 1) w
        < 256 + 256 * mload m (addr + 1) w := by omega
      _ = 256 * (mload m (addr + 1) w + 1) := by ring
      _ ≤ 256 * 2 ^ (8 * w) := by
          apply Nat.mul_le_mul_left
          omega

theorem writeSeq_eq_of_lt (fields : List (Nat × Nat)) (m : Mem) (base a : Nat) (h : a < base) :
    writeSeq m base fields a = m a := by
  induction fields generalizing m base with
  | nil => rfl
  | cons f rest ih =>
    simp only [writeSeq]
    rw [ih (mstore m base f.1 f.2) (base + f.1) (by omega)]
    exact mstore_eq_of_lt m base f.1 f.2 a h

theorem readSeq_writeSeq (fields : List (Nat × Nat)) (m : Mem) (base : Nat)
    (hwf : ∀ f ∈ fields, f.2 < 2 ^ (8 * f.1)) :
    readSeq (writeSeq m base fields) base (fields.map Prod.fst) = fields.map Prod.snd := by
  induction fields generalizing m base with
  | nil => rfl
  | cons f rest ih =>
    simp only [writeSeq, List.map_cons, readSeq]
    congr 1
    · have hcongr : mload (writeSeq (mstore m base f.1 f.2) (base + f.1) rest) base f.1
          = mload (mstore m base f.1 f.2) base f.1 := by
        apply mload_congr
        intro i hi
        exact writeSeq_eq_of_lt rest _ (base + f.1) (base + i) (by omega)
      rw [hcongr]
      exact mload_mstore_same m base f.1 f.2 (hwf f (by simp))
    · exact ih (mstore m base f.1 f.2) (base + f.1) (fun g hg => hwf g (by simp [hg]))

/-- Claim C1: the claim states that *both* implementations of
`struct_passing_mode` classify an aggregate `ByScalars` exactly when its
flattened scalar count is at most 2, a zero-field aggregate in particular.
The lowering-structs implementation does (`Point`, 2 scalars, is
`ByScalars`; `unit`, 0 scalars, is `ByScalars`), but the struct-and-enum
`TypeResolver::struct_passing_mode` has the comparison inverted: `Point`
(2 scalars) and `unit` (0 scalars) are classified `ByPointer` there, and
only aggregates with *more* than 2 scalars (such as `Player`) are
`ByScalars`. -/
theorem c1_passing_mode_code_bug :
    (LookupTable.hardcoded 8).struct_passing_mode 2 "Point" = some .ByScalars
    ∧ (LookupTable.hardcoded 8).struct_passing_mode 2 "unit" = some .ByScalars
    ∧ (LookupTable.hardcoded 8).for_scalars_of_struct 2 "Point" = some [4, 4]
    ∧ (TypeResolver.hardcoded 8).struct_passing_mode 2 "Point" = some .ByPointer
    ∧ (TypeResolver.hardcoded 8).struct_passing_mode 2 "unit" = some .ByPointer
    ∧ (TypeResolver.hardcoded 8).fold_scalars_of_struct 2 "Point" = some [8, 8]
    ∧ (TypeResolver.hardcoded 8).struct_passing_mode 2 "Player" = some .ByScalars := by
  refine ⟨rfl, rfl, rfl, rfl, rfl, rfl, rfl⟩

/-- Claim C2: under the struct-layouts policy the offset of a field is
*not* always a multiple of the field's own alignment: in the example's own
`large_struct_fields = [I32, I8, I32, I16]`, field 2 (an `I32`, alignment
4) is placed at offset 5, because the code pads after each field using
that field's own alignment instead of aligning the next field.  The
example's layout comment places that field at offset 8.  (The total size,
16, does happen to be a multiple of the struct alignment 4 here.) -/
theorem c2_offset_alignment_code_bug :
    offset_of_field 2 large_struct_fields = some 5
    ∧ alignment_of_scalar_type 4 = 4
    ∧ ¬ (4 ∣ 5)
    ∧ size_of_struct large_struct_fields = some 16 := by
  refine ⟨rfl, rfl, by decide, rfl⟩

/-! ### Layout lemmas for the lowering-structs resolver -/

theorem fl_nil (lt : LookupTable) (f : Nat) : lt.for_scalars_list f [] = some [] := by
  cases f <;> rfl

theorem fl_int_cons (lt : LookupTable) (f : Nat) (rest : List Ty) :
    lt.for_scalars_list f (.int :: rest)
      = (lt.for_scalars_list f rest).map (fun l => 4 :: l) := by
  cases f <;> rfl

theorem for_scalars_int (lt : LookupTable) (f : Nat) : lt.for_scalars f .int = some [4] := by
  cases f <;> rfl

theorem fl_struct_zero (lt : LookupTable) (n : String) (rest : List Ty) :
    lt.for_scalars_list 0 (.struct n :: rest) = none := by
  simp only [LookupTable.for_scalars_list, flGo]
  cases List.lookup n lt.struct_fields <;> rfl

theorem fl_struct_none (lt : LookupTable) (f : Nat) (n : String) (rest : List Ty)
    (hn : List.lookup n lt.struct_fields = none) :
    lt.for_scalars_list f (.struct n :: rest) = none := by
  cases f <;> simp only [LookupTable.for_scalars_list, flGo, hn]

theorem fl_struct_succ (lt : LookupTable) (f : Nat) (n : String) (rest : List Ty)
    (fs : FieldList) (hn : List.lookup n lt.struct_fields = some fs) :
    lt.for_scalars_list (f + 1) (.struct n :: rest)
      = match lt.for_scalars_list f (fs.map Prod.snd), lt.for_scalars_list (f + 1) rest with
        | some a, some b => some (a ++ b)
        | _, _ => none := by
  conv_lhs => rw [LookupTable.for_scalars_list]
  simp only [flGo, hn]
  rfl

theorem fl_mono (lt : LookupTable) :
    ∀ f tys ws, lt.for_scalars_list f tys = some ws
      → lt.for_scalars_list (f + 1) tys = some ws := by
  intro f
  induction f with
  | zero =>
    intro tys
    induction tys with
    | nil => intro ws h; rw [fl_nil] at h ⊢; exact h
    | cons ty rest ih =>
      cases ty with
      | int =>
        intro ws h
        rw [fl_int_cons] at h ⊢
        cases hr : lt.for_scalars_list 0 rest with
        | none => rw [hr] at h; cases h
        | some l => rw [hr] at h; rw [ih l hr]; exact h
      | struct n => intro ws h; rw [fl_struct_zero] at h; cases h
  | succ f ihf =>
    intro tys
    induction tys with
    | nil => intro ws h; rw [fl_nil] at h ⊢; exact h
    | cons ty rest ih =>
      cases ty with
      | int =>
        intro ws h
        rw [fl_int_cons] at h ⊢
        cases hr : lt.for_scalars_list (f + 1) rest with
        | none => rw [hr] at h; cases h
        | some l => rw [hr] at h; rw [ih l hr]; exact h
      | struct n =>
        intro ws h
        cases hn : List.lookup n lt.struct_fields with
        | none => rw [fl_struct_none lt (f + 1) n rest hn] at h; cases h
        | some fs =>
          rw [fl_struct_succ lt f n rest fs hn] at h
          rw [fl_struct_succ lt (f + 1) n rest fs hn]
          cases ha : lt.for_scalars_list f (fs.map Prod.snd) with
          | none => rw [ha] at h; cases h
          | some a =>
            rw [ha] at h
            cases hb : lt.for_scalars_list (f + 1) rest with
            | none => rw [hb] at h; cases h
            | some b =>
              rw [hb] at h
              rw [ihf _ _ ha, ih _ hb]
              exact h

theorem fl_mono_le (lt : LookupTable) {f g : Nat} (hfg : f ≤ g) :
    ∀ tys ws, lt.for_scalars_list f tys = some ws → lt.for_scalars_list g tys = some ws := by
  induction hfg with
  | refl => intro tys ws h; exact h
  | step _ ih =>
    intro tys ws h
    exact fl_mono lt _ tys ws (ih tys ws h)

theorem fl_all4 (lt : LookupTable) :
    ∀ f tys ws, lt.for_scalars_list f tys = some ws → ∀ w ∈ ws, w = 4 := by
  intro f
  induction f with
  | zero =>
    intro tys
    induction tys with
    | nil =>
      intro ws h
      rw [fl_nil] at h
      cases h
      intro w hw
      cases hw
    | cons ty rest ih =>
      cases ty with
      | int =>
        intro ws h
        rw [fl_int_cons] at h
        cases hr : lt.for_scalars_list 0 rest with
        | none => rw [hr] at h; cases h
        | some l =>
          rw [hr] at h
          cases h
          intro w hw
          rcases List.mem_cons.mp hw with h4 | hl
          · exact h4
          · exact ih l hr w hl
      | struct n => intro ws h; rw [fl_struct_zero] at h; cases h
  | succ f ihf =>
    intro tys
    induction tys with
    | nil =>
      intro ws h
      rw [fl_nil] at h
      cases h
      intro w hw
      cases hw
    | cons ty rest ih =>
      cases ty with
      | int =>
        intro ws h
        rw [fl_int_cons] at h
        cases hr : lt.for_scalars_list (f + 1) rest with
        | none => rw [hr] at h; cases h
        | some l =>
          rw [hr] at h
          cases h
          intro w hw
          rcases List.mem_cons.mp hw with h4 | hl
          · exact h4
          · exact ih l hr w hl
      | struct n =>
        intro ws h
        cases hn : List.lookup n lt.struct_fields with
        | none => rw [fl_struct_none lt (f + 1) n rest hn] at h; cases h
        | some fs =>
          rw [fl_struct_succ lt f n rest fs hn] at h
          cases ha : lt.for_scalars_list f (fs.map Prod.snd) with
          | none => rw [ha] at h; cases h
          | some a =>
            rw [ha] at h
            cases hb : lt.for_scalars_list (f + 1) rest with
            | none => rw [hb] at h; cases h
            | some b =>
              rw [hb] at h
              cases h
              intro w hw
              rcases List.mem_append.mp hw with hwa | hwb
              · exact ihf _ _ ha w hwa
              · exact ih b hb w hwb

theorem sum_of_all4 (ws : List Nat) (h : ∀ w ∈ ws, w = 4) : ws.sum = 4 * ws.length := by
  induction ws with
  | nil => rfl
  | cons w rest ih =>
    simp only [List.sum_cons, List.length_cons]
    rw [h w (by simp), ih (fun x hx => h x (by simp [hx]))]
    ring

theorem for_scalars_cons (lt : LookupTable) (f : Nat) (ty : Ty) (rest : List Ty) (ws : List Nat)
    (h : lt.for_scalars_list f (ty :: rest) = some ws) :
    ∃ a b, lt.for_scalars f ty = some a ∧ lt.for_scalars_list f rest = some b ∧ ws = a ++ b := by
  cases ty with
  | int =>
    rw [fl_int_cons] at h
    cases hr : lt.for_scalars_list f rest with
    | none => rw [hr] at h; cases h
    | some l =>
      rw [hr] at h
      cases h
      exact ⟨[4], l, for_scalars_int lt f, rfl, rfl⟩
  | struct n =>
    cases f with
    | zero => rw [fl_struct_zero] at h; cases h
    | succ f =>
      cases hn : List.lookup n lt.struct_fields with
      | none => rw [fl_struct_none lt (f + 1) n rest hn] at h; cases h
      | some fs =>
        rw [fl_struct_succ lt f n rest fs hn] at h
        cases ha : lt.for_scalars_list f (fs.map Prod.snd) with
        | none => rw [ha] at h; cases h
        | some a =>
          rw [ha] at h
          cases hb : lt.for_scalars_list (f + 1) rest with
          | none => rw [hb] at h; cases h
          | some b =>
            rw [hb] at h
            cases h
            refine ⟨a, b, ?_, rfl, rfl⟩
            show lt.for_scalars_list (f + 1) [.struct n] = some a
            rw [fl_struct_succ lt f n [] fs hn, ha, fl_nil]
            simp

theorem for_scalars_cons_intro (lt : LookupTable) (f : Nat) (ty : Ty) (rest : List Ty)
    (a b : List Nat) (h1 : lt.for_scalars f ty = some a)
    (h2 : lt.for_scalars_list f rest = some b) :
    lt.for_scalars_list f (ty :: rest) = some (a ++ b) := by
  cases ty with
  | int =>
    rw [for_scalars_int] at h1
    cases h1
    rw [fl_int_cons, h2]
    rfl
  | struct n =>
    cases f with
    | zero =>
      rw [show lt.for_scalars 0 (.struct n) = none from fl_struct_zero lt n []] at h1
      cases h1
    | succ f =>
      cases hn : List.lookup n lt.struct_fields with
      | none =>
        rw [show lt.for_scalars (f + 1) (.struct n) = none
          from fl_struct_none lt (f + 1) n [] hn] at h1
        cases h1
      | some fs =>
        have h1' : lt.for_scalars_list (f + 1) [Ty.struct n] = some a := h1
        rw [fl_struct_succ lt f n [] fs hn, fl_nil] at h1'
        cases ha : lt.for_scalars_list f (fs.map Prod.snd) with
        | none => rw [ha] at h1'; cases h1'
        | some c =>
          rw [ha] at h1'
          simp only [List.append_nil] at h1'
          cases h1'
          rw [fl_struct_succ lt f n rest fs hn, ha, h2]

theorem fieldSizes_spec (lt : LookupTable) (f : Nat) :
    ∀ (fields : FieldList) (ws : List Nat),
      lt.for_scalars_list f (fields.map Prod.snd) = some ws →
      ∃ sizes, lt.fieldSizes f fields = some sizes ∧ sizes.sum = ws.sum := by
  intro fields
  induction fields with
  | nil =>
    intro ws h
    rw [List.map_nil, fl_nil] at h
    cases h
    exact ⟨[], rfl, rfl⟩
  | cons d rest ih =>
    intro ws h
    rw [List.map_cons] at h
    obtain ⟨a, b, ha, hb, hab⟩ := for_scalars_cons lt f d.2 _ ws h
    obtain ⟨sizes, hs, hsum⟩ := ih b hb
    refine ⟨a.sum :: sizes, ?_, ?_⟩
    · simp only [LookupTable.fieldSizes, LookupTable.size_of, ha, hs]
      rfl
    · simp [hab, hsum]

theorem offsetAux_some (lt : LookupTable) (f : Nat) :
    ∀ (fields : FieldList) (k : Nat) (ws : List Nat), k < fields.length →
      lt.for_scalars_list f (fields.map Prod.snd) = some ws →
      ∃ o, lt.offsetAux f fields k = some o := by
  intro fields
  induction fields with
  | nil => intro k ws hk _h; simp at hk
  | cons d rest ih =>
    intro k ws hk h
    rw [List.map_cons] at h
    obtain ⟨a, b, ha, hb, _⟩ := for_scalars_cons lt f d.2 _ ws h
    cases k with
    | zero => exact ⟨0, rfl⟩
    | succ k =>
      obtain ⟨o, ho⟩ := ih k b (by simpa using Nat.lt_of_succ_lt_succ hk) hb
      refine ⟨a.sum + o, ?_⟩
      simp only [LookupTable.offsetAux, LookupTable.size_of, ha, ho]
      rfl

theorem field_scalars_some (lt : LookupTable) (f : Nat) :
    ∀ (fields : FieldList) (k : Nat) (d : String × Ty) (ws : List Nat),
      fields[k]? = some d →
      lt.for_scalars_list f (fields.map Prod.snd) = some ws →
      ∃ a, lt.for_scalars f d.2 = some a := by
  intro fields
  induction fields with
  | nil => intro k d ws hd; cases hd
  | cons hd tl ih =>
    intro k d ws hget h
    rw [List.map_cons] at h
    obtain ⟨a, b, ha, hb, _⟩ := for_scalars_cons lt f hd.2 _ ws h
    cases k with
    | zero =>
      simp only [List.getElem?_cons_zero] at hget
      cases hget
      exact ⟨a, ha⟩
    | succ k =>
      simp only [List.getElem?_cons_succ] at hget
      exact ih k d b hget hb

theorem offsetAux_succ (lt : LookupTable) (f : Nat) :
    ∀ (fields : FieldList) (k : Nat) (d : String × Ty) (o s : Nat),
      fields[k]? = some d →
      lt.offsetAux f fields k = some o →
      lt.size_of f d.2 = some s →
      k + 1 < fields.length →
      lt.offsetAux f fields (k + 1) = some (o + s) := by
  intro fields
  induction fields with
  | nil => intro k d o s hd; cases hd
  | cons hd tl ih =>
    intro k d o s hget ho hs hk
    cases k with
    | zero =>
      simp only [List.getElem?_cons_zero] at hget
      cases hget
      simp only [LookupTable.offsetAux] at ho
      cases ho
      have htl : ∃ t0 ttl, tl = t0 :: ttl := by
        cases tl with
        | nil => simp at hk
        | cons t0 ttl => exact ⟨t0, ttl, rfl⟩
      obtain ⟨t0, ttl, rfl⟩ := htl
      simp only [LookupTable.offsetAux, hs]
      simp [Nat.add_comm]
    | succ k =>
      simp only [List.getElem?_cons_succ] at hget
      simp only [LookupTable.offsetAux] at ho ⊢
      cases hsz : lt.size_of f hd.2 with
      | none => rw [hsz] at ho; cases ho
      | some s0 =>
        rw [hsz] at ho
        cases ho1 : lt.offsetAux f tl k with
        | none => rw [ho1] at ho; cases ho
        | some o1 =>
          rw [ho1] at ho
          cases ho
          have := ih k d o1 s hget ho1 hs (by simpa using Nat.lt_of_succ_lt_succ hk)
          rw [this]
          simp only [Option.some.injEq]
          omega

theorem offsetAux_last (lt : LookupTable) (f : Nat) :
    ∀ (fields : FieldList) (k : Nat) (d : String × Ty) (o s : Nat) (ws : List Nat),
      fields[k]? = some d →
      k + 1 = fields.length →
      lt.for_scalars_list f (fields.map Prod.snd) = some ws →
      lt.offsetAux f fields k = some o →
      lt.size_of f d.2 = some s →
      o + s = ws.sum := by
  intro fields
  induction fields with
  | nil => intro k d o s ws hd; cases hd
  | cons hd tl ih =>
    intro k d o s ws hget hlen h ho hs
    rw [List.map_cons] at h
    obtain ⟨a, b, ha, hb, hab⟩ := for_scalars_cons lt f hd.2 _ ws h
    cases k with
    | zero =>
      simp only [List.getElem?_cons_zero] at hget
      cases hget
      simp only [LookupTable.offsetAux] at ho
      cases ho
      have htl : tl = [] := by
        simp only [List.length_cons] at hlen
        cases tl with
        | nil => rfl
        | cons t0 ttl => simp at hlen
      subst htl
      rw [List.map_nil, fl_nil] at hb
      cases hb
      have ha2 : lt.size_of f hd.2 = some a.sum := by simp [LookupTable.size_of, ha]
      rw [ha2] at hs
      cases hs
      simp [hab]
    | succ k =>
      simp only [List.getElem?_cons_succ] at hget
      simp only [LookupTable.offsetAux] at ho
      cases hsz : lt.size_of f hd.2 with
      | none => rw [hsz] at ho; cases ho
      | some s0 =>
        rw [hsz] at ho
        cases ho1 : lt.offsetAux f tl k with
        | none => rw [ho1] at ho; cases ho
        | some o1 =>
          rw [ho1] at ho
          cases ho
          have hrec := ih k d o1 s b hget (by simpa using hlen) hb ho1 hs
          have hs0 : s0 = a.sum := by
            rw [show lt.size_of f hd.2 = some a.sum by simp [LookupTable.size_of, ha]] at hsz
            cases hsz
            rfl
          subst hs0
          simp [hab]
          omega

/-- Claim C6 counterexample: with an aggregate `A` whose first field has
the zero-field `unit` aggregate type, the first two field offsets of the
no-padding policy are both 0, so the claimed strict monotonicity
`offset_of(A, 0) < offset_of(A, 1)` fails (the claim explicitly includes
zero-flattened-size fields such as a field of the unit aggregate). -/
theorem c6_strict_monotonicity_counterexample :
    List.lookup "A" c6table.struct_fields
      = some [("u", Ty.struct "unit"), ("x", Ty.int)]
    ∧ c6table.offset_of_field 1 "A" 0 = some 0
    ∧ c6table.offset_of_field 1 "A" 1 = some 0
    ∧ ¬ ((0 : Nat) < 0) := by
  refine ⟨rfl, rfl, rfl, by omega⟩

/-- Claim C6 (amended): under the no-padding policy, `size_of_struct` is
the sum of the per-field flattened sizes; consecutive offsets satisfy
`offset_of(A, i+1) = offset_of(A, i) + size_of(field_i)` — hence offsets
are non-decreasing and strictly increasing exactly when the intervening
field's flattened size is nonzero (a field of the zero-field unit
aggregate yields equal consecutive offsets, refuting the claimed
unconditional strictness) — and
`offset_of(A, last) + size_of(field_last) ≤ size_of(A)`. -/
theorem c6_offsets_amended (lt : LookupTable) (fuel : Nat) (name : String)
    (fields : FieldList) (ws : List Nat)
    (hf : List.lookup name lt.struct_fields = some fields)
    (hws : lt.for_scalars_of_struct fuel name = some ws) :
    (∃ sizes, lt.fieldSizes fuel fields = some sizes
        ∧ lt.size_of_struct fuel name = some sizes.sum)
    ∧ (∀ k d, fields[k]? = some d → k + 1 < fields.length →
        ∃ o s, lt.offset_of_field fuel name k = some o
          ∧ lt.size_of fuel d.2 = some s
          ∧ lt.offset_of_field fuel name (k + 1) = some (o + s)
          ∧ o ≤ o + s ∧ (0 < s → o < o + s))
    ∧ (∀ k d, fields[k]? = some d → k + 1 = fields.length →
        ∃ o s sz, lt.offset_of_field fuel name k = some o
          ∧ lt.size_of fuel d.2 = some s
          ∧ lt.size_of_struct fuel name = some sz
          ∧ o + s ≤ sz) := by
  have hfl : lt.for_scalars_list fuel (fields.map Prod.snd) = some ws := by
    simpa [LookupTable.for_scalars_of_struct, hf] using hws
  refine ⟨?_, ?_, ?_⟩
  · obtain ⟨sizes, hs, hsum⟩ := fieldSizes_spec lt fuel fields ws hfl
    refine ⟨sizes, hs, ?_⟩
    simp [LookupTable.size_of_struct, LookupTable.for_scalars_of_struct, hf, hfl, hsum]
  · intro k d hget hk
    obtain ⟨o, ho⟩ := offsetAux_some lt fuel fields k ws (by omega) hfl
    obtain ⟨a, ha⟩ := field_scalars_some lt fuel fields k d ws hget hfl
    have hsz : lt.size_of fuel d.2 = some a.sum := by simp [LookupTable.size_of, ha]
    have hsucc := offsetAux_succ lt fuel fields k d o a.sum hget ho hsz hk
    refine ⟨o, a.sum, ?_, hsz, ?_, by omega, by omega⟩
    · simp [LookupTable.offset_of_field, hf, ho]
    · simp [LookupTable.offset_of_field, hf, hsucc]
  · intro k d hget hk
    obtain ⟨o, ho⟩ := offsetAux_some lt fuel fields k ws (by omega) hfl
    obtain ⟨a, ha⟩ := field_scalars_some lt fuel fields k d ws hget hfl
    have hsz : lt.size_of fuel d.2 = some a.sum := by simp [LookupTable.size_of, ha]
    have hlast := offsetAux_last lt fuel fields k d o a.sum ws hget hk hfl ho hsz
    refine ⟨o, a.sum, ws.sum, ?_, hsz, ?_, by omega⟩
    · simp [LookupTable.offset_of_field, hf, ho]
    · simp [LookupTable.size_of_struct, LookupTable.for_scalars_of_struct, hf, hfl]

/-- Witness for the amended C6 theorem, at the hardcoded table's `Player`
aggregate. -/
theorem c6_offsets_amended_witness :
    List.lookup "Player" (LookupTable.hardcoded 8).struct_fields
        = some [("id", Ty.int), ("position", Ty.struct "Point")]
    ∧ (LookupTable.hardcoded 8).for_scalars_of_struct 2 "Player" = some [4, 4, 4]
    ∧ ((∃ sizes, (LookupTable.hardcoded 8).fieldSizes 2
            [("id", Ty.int), ("position", Ty.struct "Point")] = some sizes
          ∧ (LookupTable.hardcoded 8).size_of_struct 2 "Player" = some sizes.sum)
      ∧ (∀ k d, [("id", Ty.int), ("position", Ty.struct "Point")][k]? = some d
          → k + 1 < 2 →
          ∃ o s, (LookupTable.hardcoded 8).offset_of_field 2 "Player" k = some o
            ∧ (LookupTable.hardcoded 8).size_of 2 d.2 = some s
            ∧ (LookupTable.hardcoded 8).offset_of_field 2 "Player" (k + 1) = some (o + s)
            ∧ o ≤ o + s ∧ (0 < s → o < o + s))
      ∧ (∀ k d, [("id", Ty.int), ("position", Ty.struct "Point")][k]? = some d
          → k + 1 = 2 →
          ∃ o s sz, (LookupTable.hardcoded 8).offset_of_field 2 "Player" k = some o
            ∧ (LookupTable.hardcoded 8).size_of 2 d.2 = some s
            ∧ (LookupTable.hardcoded 8).size_of_struct 2 "Player" = some sz
            ∧ o + s ≤ sz)) := by
  refine ⟨rfl, rfl, ?_⟩
  have h := c6_offsets_amended (LookupTable.hardcoded 8) 2 "Player"
    [("id", Ty.int), ("position", Ty.struct "Point")] [4, 4, 4] rfl rfl
  simpa using h

/-! ### Lemmas about the field-selection of `construct_struct` -/

theorem find?_insert_of_neg {α : Type} (p : α → Bool) (x : α) (h : p x = false) :
    ∀ l1 l2 : List α, List.find? p (l1 ++ x :: l2) = List.find? p (l1 ++ l2) := by
  intro l1 l2
  induction l1 with
  | nil => simp [List.find?, h]
  | cons a l1 ih =>
    simp only [List.cons_append, List.find?]
    cases p a <;> simp [ih]

theorem find?_dup {α : Type} (p : α → Bool) (x y : α) (hxy : p y = p x) :
    ∀ l1 l2 l3 : List α,
      List.find? p (l1 ++ x :: l2 ++ y :: l3) = List.find? p (l1 ++ x :: l2 ++ l3) := by
  intro l1 l2 l3
  induction l1 with
  | nil =>
    simp only [List.nil_append]
    cases hx : p x with
    | false =>
      have hy : p y = false := by rw [hxy, hx]
      simp only [List.find?, hx]
      exact find?_insert_of_neg p y hy l2 l3
    | true => simp [List.find?, hx]
  | cons a l1 ih =>
    simp only [List.cons_append]
    cases hpa : p a with
    | true =>
      rw [List.find?_cons_of_pos _ hpa, List.find?_cons_of_pos _ hpa]
    | false =>
      rw [List.find?_cons_of_neg _ (by simp [hpa]), List.find?_cons_of_neg _ (by simp [hpa])]
      exact ih

theorem find?_some_of_mem_names (n : String) (fields : List (String × VV))
    (h : n ∈ fields.map Prod.fst) :
    ∃ q, List.find? (fun p => p.1 == n) fields = some q := by
  induction fields with
  | nil => simp at h
  | cons q rest ih =>
    by_cases hq : q.1 = n
    · exact ⟨q, by simp [List.find?, hq]⟩
    · have hmem : n ∈ rest.map Prod.fst := by
        simp only [List.map_cons, List.mem_cons] at h
        rcases h with h | h
        · exact absurd h.symm hq
        · exact h
      obtain ⟨q2, hq2⟩ := ih hmem
      refine ⟨q2, ?_⟩
      have : (q.1 == n) = false := by simp [hq]
      simp [List.find?, this, hq2]

theorem find?_none_of_not_mem_names (n : String) (fields : List (String × VV))
    (h : n ∉ fields.map Prod.fst) :
    List.find? (fun p => p.1 == n) fields = none := by
  induction fields with
  | nil => rfl
  | cons q rest ih =>
    have hq : ¬ q.1 = n := by
      intro hc
      exact h (by simp [hc])
    have hmem : n ∉ rest.map Prod.fst := by
      intro hc
      exact h (by simp [hc])
    have : (q.1 == n) = false := by simp [hq]
    simp [List.find?, this, ih hmem]

theorem build_fields_congr (decl : FieldList) (A B : List (String × VV))
    (h : ∀ d ∈ decl, List.find? (fun p => p.1 == d.1) A = List.find? (fun p => p.1 == d.1) B) :
    build_fields decl A = build_fields decl B := by
  induction decl with
  | nil => rfl
  | cons d ds ih =>
    simp only [build_fields]
    rw [h d (by simp), ih (fun e he => h e (by simp [he]))]

theorem build_fields_some_of_cover (decl : FieldList) (fields : List (String × VV))
    (h : ∀ d ∈ decl, d.1 ∈ fields.map Prod.fst) :
    ∃ vs, build_fields decl fields = some vs := by
  induction decl with
  | nil => exact ⟨[], rfl⟩
  | cons d ds ih =>
    obtain ⟨q, hq⟩ := find?_some_of_mem_names d.1 fields (h d (by simp))
    obtain ⟨vs, hvs⟩ := ih (fun e he => h e (by simp [he]))
    exact ⟨q.2 :: vs, by simp [build_fields, hq, hvs]⟩

theorem build_fields_none_of_missing (decl : FieldList) (fields : List (String × VV))
    (d : String × Ty) (hd : d ∈ decl) (h : d.1 ∉ fields.map Prod.fst) :
    build_fields decl fields = none := by
  induction decl with
  | nil => simp at hd
  | cons e ds ih =>
    rcases List.mem_cons.mp hd with he | he
    · subst he
      simp [build_fields, find?_none_of_not_mem_names d.1 fields h]
    · simp only [build_fields, ih he]
      cases (List.find? (fun p => p.1 == e.1) fields).map Prod.snd <;> rfl

/-- Claim C10: `construct_struct` (both the lowering-structs and the
struct-and-enum implementation) only checks that every declared field of
the aggregate is present among the supplied pairs (returning its fatal
failure exactly when a declared field is missing); supplied pairs whose
names are not declared fields are silently ignored, and when a name is
supplied more than once the first occurrence wins — so construction never
fails on surplus or duplicate names. -/
theorem c10_construct_struct_validation (lt : LookupTable) (tr : TypeResolver)
    (t : String) (decl : FieldList)
    (h1 : List.lookup t lt.struct_fields = some decl)
    (h2 : List.lookup t tr.struct_fields = some decl) :
    (∀ fields : List (String × VV), (∀ d ∈ decl, d.1 ∈ fields.map Prod.fst) →
      ∃ vs, FuncLower.construct_struct lt t fields = some (.UnstableStruct t vs)
        ∧ Lower.construct_struct tr t fields = some (.UnstableStruct t vs))
    ∧ (∀ (fields : List (String × VV)) (d : String × Ty), d ∈ decl →
        d.1 ∉ fields.map Prod.fst →
        FuncLower.construct_struct lt t fields = none
          ∧ Lower.construct_struct tr t fields = none)
    ∧ (∀ (pre post : List (String × VV)) (j : String × VV), j.1 ∉ decl.map Prod.fst →
        FuncLower.construct_struct lt t (pre ++ j :: post)
            = FuncLower.construct_struct lt t (pre ++ post)
          ∧ Lower.construct_struct tr t (pre ++ j :: post)
            = Lower.construct_struct tr t (pre ++ post))
    ∧ (∀ (pre mid post : List (String × VV)) (n : String) (v w : VV),
        FuncLower.construct_struct lt t (pre ++ (n, v) :: mid ++ (n, w) :: post)
            = FuncLower.construct_struct lt t (pre ++ (n, v) :: mid ++ post)
          ∧ Lower.construct_struct tr t (pre ++ (n, v) :: mid ++ (n, w) :: post)
            = Lower.construct_struct tr t (pre ++ (n, v) :: mid ++ post)) := by
  refine ⟨?_, ?_, ?_, ?_⟩
  · intro fields hcov
    obtain ⟨vs, hvs⟩ := build_fields_some_of_cover decl fields hcov
    exact ⟨vs, by simp [FuncLower.construct_struct, h1, hvs],
      by simp [Lower.construct_struct, h2, hvs]⟩
  · intro fields d hd hmiss
    have hnone := build_fields_none_of_missing decl fields d hd hmiss
    exact ⟨by simp [FuncLower.construct_struct, h1, hnone],
      by simp [Lower.construct_struct, h2, hnone]⟩
  · intro pre post j hj
    have hbf : build_fields decl (pre ++ j :: post) = build_fields decl (pre ++ post) := by
      apply build_fields_congr
      intro d hd
      apply find?_insert_of_neg
      have : ¬ j.1 = d.1 := by
        intro hc
        exact hj (by
          rw [hc]
          exact List.mem_map_of_mem Prod.fst hd)
      simp [this]
    exact ⟨by simp [FuncLower.construct_struct, h1, hbf],
      by simp [Lower.construct_struct, h2, hbf]⟩
  · intro pre mid post n v w
    have hbf : build_fields decl (pre ++ (n, v) :: mid ++ (n, w) :: post)
        = build_fields decl (pre ++ (n, v) :: mid ++ post) := by
      apply build_fields_congr
      intro d hd
      have h3 := find?_dup (fun p : String × VV => p.1 == d.1) (n, v) (n, w) rfl
        pre mid post
      simpa using h3
    constructor
    · simp only [FuncLower.construct_struct, h1, Option.some_bind]
      rw [hbf]
    · simp only [Lower.construct_struct, h2, Option.some_bind]
      rw [hbf]

/-- Witness for C10 at the hardcoded `Point` aggregate of both tables. -/
theorem c10_construct_struct_validation_witness :
    List.lookup "Point" (LookupTable.hardcoded 8).struct_fields
        = some [("x", Ty.int), ("y", Ty.int)]
    ∧ List.lookup "Point" (TypeResolver.hardcoded 8).struct_fields
        = some [("x", Ty.int), ("y", Ty.int)]
    ∧ (∃ vs, FuncLower.construct_struct (LookupTable.hardcoded 8) "Point"
          [("y", VV.Scalar 20), ("extra", VV.Scalar 7), ("x", VV.Scalar 10), ("x", VV.Scalar 99)]
          = some (.UnstableStruct "Point" vs)
        ∧ Lower.construct_struct (TypeResolver.hardcoded 8) "Point"
          [("y", VV.Scalar 20), ("extra", VV.Scalar 7), ("x", VV.Scalar 10), ("x", VV.Scalar 99)]
          = some (.UnstableStruct "Point" vs)) := by
  refine ⟨rfl, rfl, ?_⟩
  exact (c10_construct_struct_validation (LookupTable.hardcoded 8) (TypeResolver.hardcoded 8)
      "Point" [("x", Ty.int), ("y", Ty.int)] rfl rfl).1
    [("y", VV.Scalar 20), ("extra", VV.Scalar 7), ("x", VV.Scalar 10), ("x", VV.Scalar 99)]
    (by decide)

/-! ### Tagged-union round-trip -/

theorem ireduce_sextend (s w v : Nat) (hv : v < 2 ^ (8 * w)) (hws : w ≤ s) :
    ireduce w (sextend s w v) = v := by
  unfold ireduce sextend
  by_cases hc : v < 2 ^ (8 * w - 1)
  · simp [hc, Nat.mod_eq_of_lt hv]
  · simp only [hc, if_false]
    have hdvd : 2 ^ (8 * w) ∣ 2 ^ (8 * s) - 2 ^ (8 * w) := by
      have hpow : 2 ^ (8 * s) = 2 ^ (8 * w) * 2 ^ (8 * s - 8 * w) := by
        rw [← pow_add]
        congr 1
        omega
      rw [hpow]
      exact Nat.dvd_sub' (Dvd.intro _ rfl) (dvd_refl _)
    obtain ⟨k, hk⟩ := hdvd
    rw [hk, Nat.add_mul_mod_self_left]
    exact Nat.mod_eq_of_lt hv

theorem payload_kind_stack_roundtrip (size_t : Nat) (st : MachSt) (tag : Int)
    (params : List TVal)
    (hwf : ∀ p ∈ params, p.val < 2 ^ (8 * p.ty))
    (hkind : payload_kind size_t (params.map TVal.ty) = .StackPointer) :
    ∃ st2, construct_tagged_union size_t st tag params = some (st2, tag, st.next)
      ∧ read_payload size_t st2.mem st.next (params.map TVal.ty) = params.map TVal.val := by
  refine ⟨⟨writeSeq st.mem st.next (params.map (fun p => (p.ty, p.val))),
    st.next + (params.map TVal.ty).sum⟩, ?_, ?_⟩
  · simp [construct_tagged_union, hkind, stack_alloc_payload]
  · simp only [read_payload, hkind]
    have hfst : (params.map (fun p => (p.ty, p.val))).map Prod.fst = params.map TVal.ty := by
      simp [List.map_map]
    have hsnd : (params.map (fun p => (p.ty, p.val))).map Prod.snd = params.map TVal.val := by
      simp [List.map_map]
    rw [← hfst, ← hsnd]
    apply readSeq_writeSeq
    intro f hf
    obtain ⟨p, hp, rfl⟩ := List.mem_map.mp hf
    exact hwf p hp

/-- Claim C3: tagged-union round-trip — for every payload field list and
every choice of well-formed field values, reading the payload back from a
constructed tagged union reproduces the inputs exactly, in each of the
four encoding cases: zero fields, one inline field of pointer width, one
inline-casted narrower field (sign-extend at construction, truncating
reduce at read), and the indirect stack-allocated case with fields at
cumulative offsets in declared order. -/
theorem c3_tagged_union_roundtrip (size_t : Nat) (st : MachSt) (tag : Int) (params : List TVal)
    (hwf : ∀ p ∈ params, p.val < 2 ^ (8 * p.ty)) :
    ∃ st2 payload, construct_tagged_union size_t st tag params = some (st2, tag, payload)
      ∧ read_payload size_t st2.mem payload (params.map TVal.ty) = params.map TVal.val := by
  cases params with
  | nil => exact ⟨st, 0, rfl, rfl⟩
  | cons p rest =>
    cases rest with
    | nil =>
      have hv : p.val < 2 ^ (8 * p.ty) := hwf p (by simp)
      rcases Nat.lt_trichotomy p.ty size_t with hlt | heq | hgt
      · have hkind : payload_kind size_t [p.ty] = .InlineCasted p.ty := by
          simp only [payload_kind]
          rw [if_pos hlt]
        refine ⟨st, sextend size_t p.ty p.val, ?_, ?_⟩
        · simp [construct_tagged_union, hkind]
        · simp only [read_payload, List.map_cons, List.map_nil, hkind]
          simp [ireduce_sextend size_t p.ty p.val hv (le_of_lt hlt)]
      · have hkind : payload_kind size_t [p.ty] = .Inline := by
          simp only [payload_kind]
          rw [if_neg (by omega), if_pos heq]
        refine ⟨st, p.val, ?_, ?_⟩
        · simp [construct_tagged_union, hkind]
        · simp [read_payload, hkind]
      · have hkind : payload_kind size_t ([p].map TVal.ty) = .StackPointer := by
          show payload_kind size_t [p.ty] = .StackPointer
          simp only [payload_kind]
          rw [if_neg (by omega), if_neg (by omega)]
        obtain ⟨st2, hcons, hread⟩ := payload_kind_stack_roundtrip size_t st tag [p] hwf hkind
        exact ⟨st2, st.next, hcons, hread⟩
    | cons q rest2 =>
      have hkind : payload_kind size_t ((p :: q :: rest2).map TVal.ty) = .StackPointer := rfl
      obtain ⟨st2, hcons, hread⟩ :=
        payload_kind_stack_roundtrip size_t st tag (p :: q :: rest2) hwf hkind
      exact ⟨st2, st.next, hcons, hread⟩

/-- Witness for C3: the example's own `Packet::Data(10, 20, 30)` variant
(three `I32` fields, indirect encoding) on a 64-bit pointer width. -/
theorem c3_tagged_union_roundtrip_witness :
    (∀ p ∈ [TVal.mk 4 10, TVal.mk 4 20, TVal.mk 4 30], p.val < 2 ^ (8 * p.ty))
    ∧ ∃ st2 payload,
        construct_tagged_union 8 ⟨memZero, 0⟩ 1 [⟨4, 10⟩, ⟨4, 20⟩, ⟨4, 30⟩]
          = some (st2, 1, payload)
        ∧ read_payload 8 st2.mem payload ([TVal.mk 4 10, ⟨4, 20⟩, ⟨4, 30⟩].map TVal.ty)
          = [TVal.mk 4 10, ⟨4, 20⟩, ⟨4, 30⟩].map TVal.val := by
  exact ⟨by decide, c3_tagged_union_roundtrip 8 ⟨memZero, 0⟩ 1 _ (by decide)⟩

/-- Claim C7: lowering the tagged-union dispatch produces exactly one jump
table whose target list has one block per declared variant in tag order,
plus a default block; the default block consists solely of a trap
instruction (the contract-violation trap, code 100), and for every tag in
the closed tag space the dispatch target is the tag's own branch block,
never the default block. -/
theorem c7_jump_table_default_trap :
    ∃ tbl, (lower_packet_match 8 entry_builder).tables = [tbl]
      ∧ tbl.targets.length = packet_tags.length
      ∧ (∀ t, t < packet_tags.length →
          br_table_target tbl t = tbl.targets.getD t 0
          ∧ br_table_target tbl t ≠ tbl.default_target)
      ∧ (lower_packet_match 8 entry_builder).blocks[tbl.default_target]?
          = some [.trap 100] := by
  refine ⟨⟨4, [1, 2, 3]⟩, by decide, by decide, by decide, by decide⟩

/-- Claim C8: closure equivalence — `f0` (capturing `a = 1`, body
`a + x + 1`) and `f1` (capturing `a = 1, b = 2`, body `a + x + b`),
invoked with the same explicit argument `x = 3` through their code
pointers with the data pointer as leading argument, each observe their own
captures (loaded from the capture box at cumulative offsets) and return 5
and 6 respectively. -/
theorem c8_closure_equivalence : closures_main = some (5, 6) := by decide

/-- Claim C9: lazy field access — destructuring a field of an
`UnstableStruct` returns the stored sub-value with the state (memory,
next slot, instruction trace) entirely unchanged; destructuring a
nested-aggregate field of a `StackStruct` emits exactly one pointer-advance
(`iadd_imm`) and returns a `StackStruct` sharing the outer storage at
`ptr + offset`, with memory and the allocation frontier unchanged (no
field data is copied); in both cases the source value is untouched. -/
theorem c9_lazy_destructure (lt : LookupTable) (tf : Nat) (st stS : St)
    (t type_ sub : String) (vs : List VV) (i : Nat) (v : VV) (ptr field off : Nat)
    (ha : vs[i]? = some v)
    (hoff : lt.offset_of_field tf type_ field = some off)
    (hty : lt.type_of_field type_ field = some (.struct sub)) :
    destruct_field lt tf st (.UnstableStruct t vs) i = some (st, v)
    ∧ destruct_field lt tf stS (.StackStruct type_ ptr) field
        = some ({ mem := stS.mem, next := stS.next,
                  trace := stS.trace ++ [.iadd_imm ptr off] },
                .StackStruct sub (ptr + off)) := by
  constructor
  · simp [destruct_field, ha]
  · simp [destruct_field, hoff, hty]

/-- Witness for C9: destructuring field 0 of an unstable `Point` and the
nested `position` field of a stack-resident `Player` in the hardcoded
table. -/
theorem c9_lazy_destructure_witness :
    ([VV.Scalar 1, VV.Scalar 2][0]? = some (VV.Scalar 1)
      ∧ (LookupTable.hardcoded 8).offset_of_field 2 "Player" 1 = some 4
      ∧ (LookupTable.hardcoded 8).type_of_field "Player" 1 = some (.struct "Point"))
    ∧ (destruct_field (LookupTable.hardcoded 8) 2 ⟨memZero, 0, []⟩
          (.UnstableStruct "Point" [VV.Scalar 1, VV.Scalar 2]) 0
        = some (⟨memZero, 0, []⟩, VV.Scalar 1)
      ∧ destruct_field (LookupTable.hardcoded 8) 2 ⟨memZero, 0, []⟩
          (.StackStruct "Player" 100) 1
        = some ({ mem := memZero, next := 0,
                  trace := [] ++ [.iadd_imm 100 4] }, .StackStruct "Point" (100 + 4))) := by
  refine ⟨⟨rfl, rfl, rfl⟩, ?_⟩
  exact c9_lazy_destructure (LookupTable.hardcoded 8) 2 ⟨memZero, 0, []⟩ ⟨memZero, 0, []⟩
    "Point" "Player" "Point" [VV.Scalar 1, VV.Scalar 2] 0 (VV.Scalar 1) 100 1 4
    rfl rfl rfl

/-! ### Infrastructure for the aggregate round-trip -/

theorem drop_eq_cons_getElem {α : Type} :
    ∀ (k : Nat) (l : List α) (d : α) (rest : List α),
      l.drop k = d :: rest → l[k]? = some d := by
  intro k
  induction k with
  | zero =>
    intro l d rest h
    rw [List.drop_zero] at h
    subst h
    simp
  | succ k ih =>
    intro l d rest h
    cases l with
    | nil => simp at h
    | cons hd tl =>
      rw [List.drop_succ_cons] at h
      simpa using ih tl d rest h

theorem take_drop_succ {α : Type} (k : Nat) (l : List α) (d : α) (rest : List α)
    (h : l.drop k = d :: rest) : l.take (k + 1) = l.take k ++ [d] := by
  rw [List.take_succ, drop_eq_cons_getElem k l d rest h]
  rfl

theorem fl_append_intro (lt : LookupTable) (f : Nat) :
    ∀ (l1 l2 : List Ty) (a b : List Nat),
      lt.for_scalars_list f l1 = some a → lt.for_scalars_list f l2 = some b →
      lt.for_scalars_list f (l1 ++ l2) = some (a ++ b) := by
  intro l1
  induction l1 with
  | nil =>
    intro l2 a b h1 h2
    rw [fl_nil] at h1
    cases h1
    simpa using h2
  | cons ty rest ih =>
    intro l2 a b h1 h2
    obtain ⟨a0, a1, ha0, ha1, hsplit⟩ := for_scalars_cons lt f ty rest a h1
    subst hsplit
    rw [List.cons_append]
    have := for_scalars_cons_intro lt f ty (rest ++ l2) a0 (a1 ++ b) ha0
      (ih l2 a1 b ha1 h2)
    simpa [List.append_assoc] using this

theorem for_scalars_mono (lt : LookupTable) {f g : Nat} (hfg : f ≤ g) (ty : Ty)
    (a : List Nat) (h : lt.for_scalars f ty = some a) : lt.for_scalars g ty = some a :=
  fl_mono_le lt hfg [ty] a h

theorem size_of_mono (lt : LookupTable) {f g : Nat} (hfg : f ≤ g) (ty : Ty)
    (s : Nat) (h : lt.size_of f ty = some s) : lt.size_of g ty = some s := by
  simp only [LookupTable.size_of] at h ⊢
  cases ha : lt.for_scalars f ty with
  | none => rw [ha] at h; cases h
  | some a =>
    rw [ha] at h
    rw [for_scalars_mono lt hfg ty a ha]
    exact h

theorem offsetAux_mono (lt : LookupTable) {f g : Nat} (hfg : f ≤ g) :
    ∀ (fields : FieldList) (k : Nat) (o : Nat),
      lt.offsetAux f fields k = some o → lt.offsetAux g fields k = some o := by
  intro fields
  induction fields with
  | nil => intro k o h; cases k <;> cases h
  | cons d rest ih =>
    intro k o h
    cases k with
    | zero => exact h
    | succ k =>
      simp only [LookupTable.offsetAux] at h ⊢
      cases hs : lt.size_of f d.2 with
      | none => rw [hs] at h; cases h
      | some s =>
        rw [hs] at h
        cases ho : lt.offsetAux f rest k with
        | none => rw [ho] at h; cases h
        | some o1 =>
          rw [ho] at h
          rw [size_of_mono lt hfg d.2 s hs, ih k o1 ho]
          exact h

theorem offsetAux_of_take (lt : LookupTable) (f : Nat) :
    ∀ (k : Nat) (fields : FieldList) (d : String × Ty) (rest : FieldList) (wpre : List Nat),
      fields.drop k = d :: rest →
      lt.for_scalars_list f ((fields.take k).map Prod.snd) = some wpre →
      lt.offsetAux f fields k = some wpre.sum := by
  intro k
  induction k with
  | zero =>
    intro fields d rest wpre hdrop hpre
    rw [List.drop_zero] at hdrop
    subst hdrop
    rw [List.take_zero, List.map_nil, fl_nil] at hpre
    cases hpre
    rfl
  | succ k ih =>
    intro fields d rest wpre hdrop hpre
    cases fields with
    | nil => simp at hdrop
    | cons hd tl =>
      rw [List.drop_succ_cons] at hdrop
      rw [List.take_succ_cons, List.map_cons] at hpre
      obtain ⟨a, b, ha, hb, hsplit⟩ := for_scalars_cons lt f hd.2 _ wpre hpre
      subst hsplit
      have hrec := ih tl d rest b hdrop hb
      simp only [LookupTable.offsetAux]
      rw [show lt.size_of f hd.2 = some a.sum by simp [LookupTable.size_of, ha], hrec]
      simp

theorem wordReads_length (m : Mem) : ∀ (cnt base : Nat), (wordReads m base cnt).length = cnt := by
  intro cnt
  induction cnt with
  | zero => intro base; rfl
  | succ cnt ih => intro base; simp [wordReads, ih]

theorem wordReads_append (m : Mem) :
    ∀ (c1 base c2 : Nat),
      wordReads m base (c1 + c2) = wordReads m base c1 ++ wordReads m (base + 4 * c1) c2 := by
  intro c1
  induction c1 with
  | zero => intro base c2; simp [wordReads]
  | succ c1 ih =>
    intro base c2
    rw [show c1 + 1 + c2 = (c1 + c2) + 1 by omega]
    simp only [wordReads, List.cons_append]
    rw [ih (base + 4) c2]
    rw [show base + 4 + 4 * c1 = base + 4 * (c1 + 1) by omega]

theorem wordReads_getD (m : Mem) :
    ∀ (cnt base j : Nat), j < cnt →
      (wordReads m base cnt).getD j 0 = mload m (base + 4 * j) 4 := by
  intro cnt
  induction cnt with
  | zero => intro base j hj; exact absurd hj (by omega)
  | succ cnt ih =>
    intro base j hj
    cases j with
    | zero => simp [wordReads]
    | succ j =>
      simp only [wordReads, List.getD_cons_succ]
      rw [ih (base + 4) j (by omega)]
      congr 1
      omega

theorem wordReads_congr (m1 m2 : Mem) :
    ∀ (cnt base : Nat), (∀ a, base ≤ a → a < base + 4 * cnt → m1 a = m2 a) →
      wordReads m1 base cnt = wordReads m2 base cnt := by
  intro cnt
  induction cnt with
  | zero => intro base _; rfl
  | succ cnt ih =>
    intro base h
    simp only [wordReads]
    congr 1
    · apply mload_congr
      intro i hi
      exact h (base + i) (by omega) (by omega)
    · apply ih (base + 4)
      intro a ha1 ha2
      exact h a (by omega) (by omega)

theorem list_eq_of_getD (l1 : List Nat) :
    ∀ (l2 : List Nat), l1.length = l2.length →
      (∀ j, j < l1.length → l1.getD j 0 = l2.getD j 0) → l1 = l2 := by
  induction l1 with
  | nil =>
    intro l2 hlen _
    cases l2 with
    | nil => rfl
    | cons b l2 => simp at hlen
  | cons a l1 ih =>
    intro l2 hlen hget
    cases l2 with
    | nil => simp at hlen
    | cons b l2 =>
      have h0 := hget 0 (by simp)
      simp only [List.getD_cons_zero] at h0
      subst h0
      congr 1
      apply ih l2 (by simpa using hlen)
      intro j hj
      have := hget (j + 1) (by simpa using Nat.succ_lt_succ hj)
      simpa using this

theorem join_len_lower (xss : List (List Nat)) :
    ∀ (i : Nat) (xs : List Nat), xss[i]? = some xs →
      ((xss.take i).map List.length).sum + xs.length ≤ xss.flatten.length := by
  induction xss with
  | nil => intro i xs h; cases i <;> cases h
  | cons ys rest ih =>
    intro i xs h
    cases i with
    | zero =>
      simp only [List.getElem?_cons_zero] at h
      cases h
      simp [List.flatten_cons]
    | succ i =>
      simp only [List.getElem?_cons_succ] at h
      have := ih i xs h
      simp only [List.take_succ_cons, List.map_cons, List.sum_cons, List.flatten_cons,
        List.length_append]
      omega

theorem getD_append_left (l1 l2 : List Nat) :
    ∀ j, j < l1.length → (l1 ++ l2).getD j 0 = l1.getD j 0 := by
  induction l1 with
  | nil => intro j hj; exact absurd hj (by simp)
  | cons x xs ih =>
    intro j hj
    cases j with
    | zero => simp
    | succ j =>
      simp only [List.cons_append, List.getD_cons_succ]
      exact ih j (by simpa using Nat.lt_of_succ_lt_succ hj)

theorem getD_append_skip (l1 l2 : List Nat) :
    ∀ n, (l1 ++ l2).getD (l1.length + n) 0 = l2.getD n 0 := by
  induction l1 with
  | nil => intro n; simp
  | cons y ys ih =>
    intro n
    simp only [List.cons_append, List.length_cons]
    rw [show ys.length + 1 + n = (ys.length + n) + 1 by omega]
    simp only [List.getD_cons_succ]
    exact ih n

theorem join_getD (xss : List (List Nat)) :
    ∀ (i : Nat) (xs : List Nat) (j : Nat), xss[i]? = some xs → j < xs.length →
      xss.flatten.getD (((xss.take i).map List.length).sum + j) 0 = xs.getD j 0 := by
  induction xss with
  | nil => intro i xs j h; cases i <;> cases h
  | cons ys rest ih =>
    intro i xs j h hj
    cases i with
    | zero =>
      simp only [List.getElem?_cons_zero] at h
      cases h
      simp only [List.take_zero, List.map_nil, List.sum_nil, Nat.zero_add, List.flatten_cons]
      exact getD_append_left _ _ j hj
    | succ i =>
      simp only [List.getElem?_cons_succ] at h
      simp only [List.take_succ_cons, List.map_cons, List.sum_cons, List.flatten_cons]
      rw [show ys.length + ((rest.take i).map List.length).sum + j
        = ys.length + ((((rest.take i).map List.length).sum) + j) by omega]
      rw [getD_append_skip]
      exact ih i xs j h hj

theorem for_scalars_int_elim (lt : LookupTable) (f : Nat) (a : List Nat)
    (h : lt.for_scalars f .int = some a) : a = [4] := by
  rw [for_scalars_int] at h
  cases h
  rfl

theorem for_scalars_struct_elim (lt : LookupTable) (f : Nat) (n : String) (a : List Nat)
    (h : lt.for_scalars f (.struct n) = some a) :
    ∃ g fs, f = g + 1 ∧ List.lookup n lt.struct_fields = some fs
      ∧ lt.for_scalars_list g (fs.map Prod.snd) = some a := by
  cases f with
  | zero =>
    rw [show lt.for_scalars 0 (.struct n) = none from fl_struct_zero lt n []] at h
    cases h
  | succ g =>
    cases hn : List.lookup n lt.struct_fields with
    | none =>
      rw [show lt.for_scalars (g + 1) (.struct n) = none
        from fl_struct_none lt (g + 1) n [] hn] at h
      cases h
    | some fs =>
      have h2 : lt.for_scalars_list (g + 1) [Ty.struct n] = some a := h
      rw [fl_struct_succ lt g n [] fs hn, fl_nil] at h2
      cases hc : lt.for_scalars_list g (fs.map Prod.snd) with
      | none => rw [hc] at h2; cases h2
      | some c =>
        rw [hc] at h2
        simp only [List.append_nil] at h2
        cases h2
        refine ⟨g, fs, rfl, ?_, ?_⟩
        · rfl
        · exact hc

theorem readStruct_spec (lt : LookupTable) :
    ∀ f, ∀ (t : String) (fields : FieldList) (ws : List Nat) (m : Mem) (base : Nat),
      List.lookup t lt.struct_fields = some fields →
      lt.for_scalars_list f (fields.map Prod.snd) = some ws →
      readStruct lt (f + 1) m t base = some (wordReads m base ws.length) := by
  intro f
  induction f using Nat.strong_induction_on with
  | _ f IH =>
    intro t fields ws m base hdecl hws
    have loop : ∀ (rest : FieldList), ∀ (k : Nat) (wpre wsuf : List Nat),
        fields.drop k = rest →
        lt.for_scalars_list f ((fields.take k).map Prod.snd) = some wpre →
        lt.for_scalars_list f (rest.map Prod.snd) = some wsuf →
        readGo lt f (readStruct lt f) m t rest k base
          = some (wordReads m (base + 4 * wpre.length) wsuf.length) := by
      intro rest
      induction rest with
      | nil =>
        intro k wpre wsuf _hdrop _hpre hsuf
        rw [List.map_nil, fl_nil] at hsuf
        cases hsuf
        rfl
      | cons d rest2 ihr =>
        obtain ⟨dname, dty⟩ := d
        intro k wpre wsuf hdrop hpre hsuf
        rw [List.map_cons] at hsuf
        obtain ⟨a, b, ha, hb, hsplit⟩ := for_scalars_cons lt f dty _ wsuf hsuf
        subst hsplit
        have hoffAux : lt.offsetAux f fields k = some wpre.sum :=
          offsetAux_of_take lt f k fields (dname, dty) rest2 wpre hdrop hpre
        have hsum : wpre.sum = 4 * wpre.length := sum_of_all4 wpre (fl_all4 lt f _ wpre hpre)
        have hoff : lt.offset_of_field f t k = some (4 * wpre.length) := by
          simp [LookupTable.offset_of_field, hdecl, hoffAux, hsum]
        have htake : fields.take (k + 1) = fields.take k ++ [(dname, dty)] :=
          take_drop_succ k fields (dname, dty) rest2 hdrop
        have hpre2 : lt.for_scalars_list f ((fields.take (k + 1)).map Prod.snd)
            = some (wpre ++ a) := by
          rw [htake, List.map_append]
          exact fl_append_intro lt f _ _ wpre a hpre ha
        have hdrop2 : fields.drop (k + 1) = rest2 := by
          have h1 := List.drop_drop 1 k fields
          rw [hdrop] at h1
          simpa using h1.symm
        cases dty with
        | int =>
          have ha4 : a = [4] := for_scalars_int_elim lt f a ha
          subst ha4
          have htail := ihr (k + 1) (wpre ++ [4]) b hdrop2 hpre2 hb
          have hlen : (wpre ++ [4]).length = wpre.length + 1 := by simp
          rw [hlen] at htail
          simp only [readGo, hoff, htail]
          simp only [List.singleton_append, List.length_cons, Option.some.injEq]
          rw [show base + 4 * (wpre.length + 1) = base + 4 * wpre.length + 4 by omega]
          rfl
        | struct sname =>
          obtain ⟨g, sfs, rfl, hsn, hsfl⟩ := for_scalars_struct_elim lt f sname a ha
          have hnested := IH g (by omega) sname sfs a m (base + 4 * wpre.length) hsn hsfl
          have htail := ihr (k + 1) (wpre ++ a) b hdrop2 hpre2 hb
          simp only [readGo, hoff, hnested, htail]
          simp only [List.length_append, Option.some.injEq]
          rw [wordReads_append m a.length (base + 4 * wpre.length) b.length]
          rw [show base + 4 * wpre.length + 4 * a.length
            = base + 4 * (wpre.length + a.length) by omega]
    have happ := loop fields 0 [] ws (by simp) (by rw [List.take_zero, List.map_nil, fl_nil])
      hws
    show (match List.lookup t lt.struct_fields with
          | none => none
          | some fields => readGo lt f (readStruct lt f) m t fields 0 base)
        = some (wordReads m base ws.length)
    rw [hdecl]
    simpa using happ

theorem copy_spec (lt : LookupTable) :
    ∀ f, ∀ (t : String) (fields : FieldList) (ws : List Nat) (st : St) (src dst : Nat),
      List.lookup t lt.struct_fields = some fields →
      lt.for_scalars_list f (fields.map Prod.snd) = some ws →
      src + 4 * ws.length ≤ dst →
      ∃ st2, copy_struct_fields lt (f + 1) st t src dst = some st2
        ∧ st2.next = st.next
        ∧ (∀ a, a < dst ∨ dst + 4 * ws.length ≤ a → st2.mem a = st.mem a)
        ∧ (∀ j, j < ws.length →
            mload st2.mem (dst + 4 * j) 4 = mload st.mem (src + 4 * j) 4) := by
  intro f
  induction f using Nat.strong_induction_on with
  | _ f IH =>
    intro t fields ws st src dst hdecl hws hdisj
    have loop : ∀ (rest : FieldList), ∀ (k : Nat) (wpre wsuf : List Nat) (st1 : St),
        fields.drop k = rest →
        lt.for_scalars_list f ((fields.take k).map Prod.snd) = some wpre →
        lt.for_scalars_list f (rest.map Prod.snd) = some wsuf →
        wpre.length + wsuf.length = ws.length →
        ∃ st2, copyGo lt f (copy_struct_fields lt f) st1 t rest k src dst = some st2
          ∧ st2.next = st1.next
          ∧ (∀ a, a < dst + 4 * wpre.length ∨ dst + 4 * ws.length ≤ a →
              st2.mem a = st1.mem a)
          ∧ (∀ j, wpre.length ≤ j → j < ws.length →
              mload st2.mem (dst + 4 * j) 4 = mload st1.mem (src + 4 * j) 4) := by
      intro rest
      induction rest with
      | nil =>
        intro k wpre wsuf st1 _hdrop _hpre hsuf htot
        rw [List.map_nil, fl_nil] at hsuf
        cases hsuf
        have hL : wpre.length = ws.length := by simpa using htot
        refine ⟨st1, rfl, rfl, fun a _ => rfl, fun j hj1 hj2 => ?_⟩
        exact absurd hj2 (by omega)
      | cons d rest2 ihr =>
        obtain ⟨dname, dty⟩ := d
        intro k wpre wsuf st1 hdrop hpre hsuf htot
        rw [List.map_cons] at hsuf
        obtain ⟨a, b, ha, hb, hsplit⟩ := for_scalars_cons lt f dty _ wsuf hsuf
        subst hsplit
        have hlen : wpre.length + (a.length + b.length) = ws.length := by
          simpa [List.length_append] using htot
        have hoffAux := offsetAux_of_take lt f k fields (dname, dty) rest2 wpre hdrop hpre
        have hsum : wpre.sum = 4 * wpre.length := sum_of_all4 wpre (fl_all4 lt f _ wpre hpre)
        have hoff : lt.offset_of_field f t k = some (4 * wpre.length) := by
          simp [LookupTable.offset_of_field, hdecl, hoffAux, hsum]
        have htake := take_drop_succ k fields (dname, dty) rest2 hdrop
        have hpre2 : lt.for_scalars_list f ((fields.take (k + 1)).map Prod.snd)
            = some (wpre ++ a) := by
          rw [htake, List.map_append]
          exact fl_append_intro lt f _ _ wpre a hpre ha
        have hdrop2 : fields.drop (k + 1) = rest2 := by
          have h1 := List.drop_drop 1 k fields
          rw [hdrop] at h1
          simpa using h1.symm
        cases dty with
        | int =>
          have ha4 := for_scalars_int_elim lt f a ha
          subst ha4
          obtain ⟨st2, hgo, hnext, hframe, hreads⟩ := ihr (k + 1) (wpre ++ [4]) b
            { mem := mstore st1.mem (dst + 4 * wpre.length) 4
                (mload st1.mem (src + 4 * wpre.length) 4),
              next := st1.next,
              trace := st1.trace ++ [.load (src + 4 * wpre.length),
                .store (dst + 4 * wpre.length) (mload st1.mem (src + 4 * wpre.length) 4)] }
            hdrop2 hpre2 hb
            (by simp only [List.length_append, List.length_cons, List.length_nil] at hlen ⊢
                omega)
          simp only [List.length_append, List.length_cons, List.length_nil] at hframe hreads
          refine ⟨st2, ?_, ?_, ?_, ?_⟩
          · simp only [copyGo, hoff]
            exact hgo
          · rw [hnext]
          · intro x hx
            rw [hframe x (by omega)]
            rcases hx with hx | hx
            · exact mstore_eq_of_lt _ _ _ _ _ (by omega)
            · exact mstore_eq_of_ge _ _ _ _ _ (by simp at hlen; omega)
          · intro j hj1 hj2
            rcases Nat.eq_or_lt_of_le hj1 with heq | hlt
            · subst heq
              have hcongr := mload_congr st2.mem
                (mstore st1.mem (dst + 4 * wpre.length) 4
                  (mload st1.mem (src + 4 * wpre.length) 4))
                (dst + 4 * wpre.length) 4
                (fun i hi => hframe _ (Or.inl (by omega)))
              rw [hcongr]
              exact mload_mstore_same st1.mem _ 4 _ (mload_lt st1.mem _ 4)
            · rw [hreads j (by omega) hj2]
              exact mload_mstore_disjoint st1.mem (src + 4 * j) 4
                (dst + 4 * wpre.length) 4 _ (Or.inl (by omega))
        | struct sname =>
          obtain ⟨g, sfs, rfl, hsn, hsfl⟩ := for_scalars_struct_elim lt _ sname a ha
          obtain ⟨stn, hcopy, hnextn, hframen, hreadsn⟩ := IH g (by omega) sname sfs a
            { mem := st1.mem, next := st1.next,
              trace := st1.trace ++ [.iadd_imm src (4 * wpre.length),
                .iadd_imm dst (4 * wpre.length)] }
            (src + 4 * wpre.length) (dst + 4 * wpre.length) hsn hsfl (by omega)
          obtain ⟨st2, hgo, hnext2, hframe2, hreads2⟩ := ihr (k + 1) (wpre ++ a) b stn
            hdrop2 hpre2 hb (by simp only [List.length_append]; omega)
          rw [List.length_append] at hframe2 hreads2
          refine ⟨st2, ?_, ?_, ?_, ?_⟩
          · simp only [copyGo, hoff, hcopy]
            exact hgo
          · rw [hnext2, hnextn]
          · intro x hx
            rw [hframe2 x (by omega)]
            exact hframen x (by omega)
          · intro j hj1 hj2
            by_cases hcase : j < wpre.length + a.length
            · have hbytes : ∀ i, i < 4 → st2.mem (dst + 4 * j + i) = stn.mem (dst + 4 * j + i) :=
                fun i hi => hframe2 _ (Or.inl (by omega))
              rw [mload_congr st2.mem stn.mem (dst + 4 * j) 4 hbytes]
              have hj' : j - wpre.length < a.length := by omega
              have := hreadsn (j - wpre.length) hj'
              rw [show dst + 4 * wpre.length + 4 * (j - wpre.length) = dst + 4 * j by omega,
                show src + 4 * wpre.length + 4 * (j - wpre.length) = src + 4 * j by omega] at this
              exact this
            · rw [hreads2 j (by omega) hj2]
              have hbytes : ∀ i, i < 4 → stn.mem (src + 4 * j + i) = st1.mem (src + 4 * j + i) :=
                fun i hi => hframen _ (Or.inl (by omega))
              exact mload_congr stn.mem st1.mem (src + 4 * j) 4 hbytes
    have happ := loop fields 0 [] ws st (by simp)
      (by rw [List.take_zero, List.map_nil, fl_nil]) hws (by simp)
    obtain ⟨st2, hgo, hnext, hframe, hreads⟩ := happ
    refine ⟨st2, ?_, hnext, ?_, ?_⟩
    · show (match List.lookup t lt.struct_fields with
            | none => none
            | some fs => copyGo lt f (copy_struct_fields lt f) st t fs 0 src dst) = some st2
      rw [hdecl]
      exact hgo
    · intro x hx
      exact hframe x (by simpa using hx)
    · intro j hj
      exact hreads j (by simp) hj

theorem obs_scalar (lt : LookupTable) (m : Mem) (fc n : Nat) :
    obs lt m fc (.Scalar n) = some [n] := by
  cases fc <;> rfl

theorem obs_stack (lt : LookupTable) (m : Mem) (fc : Nat) (t : String) (p : Nat) :
    obs lt m fc (.StackStruct t p) = readStruct lt (fc + 1) m t p := by
  cases fc <;> rfl

theorem conform_scalar_elim (lt : LookupTable) (fc : Nat) (fty : Ty) (n : Nat)
    (h : conform lt fc fty (.Scalar n) = true) : fty = .int ∧ n < 2 ^ 32 := by
  cases fty with
  | int =>
    refine ⟨rfl, ?_⟩
    cases fc <;> simpa [conform] using h
  | struct s => cases fc <;> simp [conform] at h

theorem conform_stack (lt : LookupTable) (fc : Nat) (nm t : String) (p : Nat) :
    conform lt fc (.struct nm) (.StackStruct t p)
      = (nm == t && (lt.for_scalars_of_struct fc t).isSome) := by
  cases fc <;> rfl

theorem conform_int_stack (lt : LookupTable) (fc : Nat) (t : String) (p : Nat) :
    conform lt fc .int (.StackStruct t p) = false := by
  cases fc <;> rfl

theorem conform_int_unstable (lt : LookupTable) (fc : Nat) (t : String) (vs : List VV) :
    conform lt fc .int (.UnstableStruct t vs) = false := by
  cases fc <;> rfl

theorem conform_unstable_zero (lt : LookupTable) (fty : Ty) (t : String) (vs : List VV) :
    conform lt 0 fty (.UnstableStruct t vs) = false := by
  cases fty <;> rfl

theorem conform_unstable_succ (lt : LookupTable) (k : Nat) (nm t : String) (vs : List VV) :
    conform lt (k + 1) (.struct nm) (.UnstableStruct t vs)
      = (nm == t
          && (match List.lookup nm lt.struct_fields with
              | some decl => confGo (conform lt k) decl vs
              | none => false)) := rfl

theorem vvBelow_scalar (lt : LookupTable) (B fc n : Nat) :
    vvBelow lt B fc (.Scalar n) = true := by
  cases fc <;> rfl

theorem vvBelow_stack (lt : LookupTable) (B fc : Nat) (t : String) (p : Nat) :
    vvBelow lt B fc (.StackStruct t p)
      = (match lt.size_of_struct fc t with
         | some s => decide (p + s ≤ B)
         | none => false) := by
  cases fc <;> rfl

theorem vvBelow_unstable_succ (lt : LookupTable) (B k : Nat) (t : String) (vs : List VV) :
    vvBelow lt B (k + 1) (.UnstableStruct t vs) = belowGo (vvBelow lt B k) vs := rfl

theorem obs_unstable_succ (lt : LookupTable) (m : Mem) (k : Nat) (t : String) (vs : List VV) :
    obs lt m (k + 1) (.UnstableStruct t vs) = obsGo (obs lt m k) vs := rfl

theorem obsGo_eq_flatten (rec : VV → Option (List Nat)) :
    ∀ vs, obsGo rec vs = (obsFieldsGo rec vs).map List.flatten := by
  intro vs
  induction vs with
  | nil => rfl
  | cons v rest ih =>
    simp only [obsGo, obsFieldsGo, ih]
    cases rec v with
    | none => rfl
    | some a =>
      cases hr : obsFieldsGo rec rest with
      | none => rfl
      | some xss => simp [List.flatten_cons]

theorem getElem_opt_drop_cons {α : Type} :
    ∀ (i : Nat) (l : List α) (d : α), l[i]? = some d → l.drop i = d :: l.drop (i + 1) := by
  intro i
  induction i with
  | zero =>
    intro l d h
    cases l with
    | nil => cases h
    | cons x xs =>
      simp at h
      subst h
      rfl
  | succ i ih =>
    intro l d h
    cases l with
    | nil => cases h
    | cons x xs =>
      simp only [List.getElem?_cons_succ] at h
      simp only [List.drop_succ_cons]
      exact ih xs d h

theorem conform_obs (lt : LookupTable) (m : Mem) :
    ∀ fc, ∀ (fty : Ty) (v : VV), conform lt fc fty v = true →
      ∃ a xs, lt.for_scalars (fc + 1) fty = some a
        ∧ obs lt m fc v = some xs ∧ xs.length = a.length := by
  intro fc
  induction fc using Nat.strong_induction_on with
  | _ fc IH =>
    intro fty v hconf
    cases v with
    | Scalar n =>
      obtain ⟨hty, _⟩ := conform_scalar_elim lt fc fty n hconf
      subst hty
      exact ⟨[4], [n], for_scalars_int lt _, obs_scalar lt m fc n, rfl⟩
    | StackStruct t p =>
      cases fty with
      | int => rw [conform_int_stack] at hconf; cases hconf
      | struct nm =>
        rw [conform_stack, Bool.and_eq_true] at hconf
        obtain ⟨hnm, hsome⟩ := hconf
        have hnm' : nm = t := by simpa using hnm
        subst hnm'
        rw [LookupTable.for_scalars_of_struct] at hsome
        cases hd : List.lookup nm lt.struct_fields with
        | none => rw [hd] at hsome; cases hsome
        | some fs =>
          rw [hd, Option.some_bind] at hsome
          cases hw : lt.for_scalars_list fc (fs.map Prod.snd) with
          | none => rw [hw] at hsome; cases hsome
          | some ws =>
            refine ⟨ws, wordReads m p ws.length, ?_, ?_, wordReads_length m ws.length p⟩
            · show lt.for_scalars_list (fc + 1) [.struct nm] = some ws
              rw [fl_struct_succ lt fc nm [] fs hd, hw, fl_nil]
              simp
            · rw [obs_stack]
              exact readStruct_spec lt fc nm fs ws m p hd hw
    | UnstableStruct t fields =>
      cases fty with
      | int => rw [conform_int_unstable] at hconf; cases hconf
      | struct nm =>
        cases fc with
        | zero => rw [conform_unstable_zero] at hconf; cases hconf
        | succ k =>
          rw [conform_unstable_succ, Bool.and_eq_true] at hconf
          obtain ⟨hnm, hrest⟩ := hconf
          have hnm' : nm = t := by simpa using hnm
          cases hd : List.lookup nm lt.struct_fields with
          | none => rw [hd] at hrest; cases hrest
          | some decl =>
            rw [hd] at hrest
            have loop : ∀ (ds : FieldList) (vs : List VV),
                confGo (conform lt k) ds vs = true →
                ∃ a xs, lt.for_scalars_list (k + 1) (ds.map Prod.snd) = some a
                  ∧ obsGo (obs lt m k) vs = some xs ∧ xs.length = a.length := by
              intro ds
              induction ds with
              | nil =>
                intro vs hc
                cases vs with
                | nil => exact ⟨[], [], fl_nil lt (k + 1), rfl, rfl⟩
                | cons v vs => simp [confGo] at hc
              | cons d ds ihd =>
                intro vs hc
                cases vs with
                | nil => simp [confGo] at hc
                | cons v vs =>
                  simp only [confGo, Bool.and_eq_true] at hc
                  obtain ⟨a1, xs1, hA1, hX1, hL1⟩ := IH k (by omega) d.2 v hc.1
                  obtain ⟨a2, xs2, hA2, hX2, hL2⟩ := ihd vs hc.2
                  refine ⟨a1 ++ a2, xs1 ++ xs2, ?_, ?_, by simp [hL1, hL2]⟩
                  · rw [List.map_cons]
                    exact for_scalars_cons_intro lt (k + 1) d.2 _ a1 a2 hA1 hA2
                  · simp only [obsGo, hX1, hX2]
            obtain ⟨a, xs, hA, hX, hL⟩ := loop decl fields hrest
            refine ⟨a, xs, ?_, ?_, hL⟩
            · show lt.for_scalars_list (k + 1 + 1) [.struct nm] = some a
              rw [fl_struct_succ lt (k + 1) nm [] decl hd, hA, fl_nil]
              simp
            · rw [obs_unstable_succ]
              exact hX

theorem obs_congr_below (lt : LookupTable) (m1 m2 : Mem) (B : Nat)
    (hm : ∀ a, a < B → m1 a = m2 a) :
    ∀ fc (v : VV), vvBelow lt B fc v = true → obs lt m1 fc v = obs lt m2 fc v := by
  intro fc
  induction fc using Nat.strong_induction_on with
  | _ fc IH =>
    intro v hb
    cases v with
    | Scalar n => rw [obs_scalar, obs_scalar]
    | StackStruct t p =>
      rw [obs_stack, obs_stack]
      rw [vvBelow_stack] at hb
      cases hs : lt.size_of_struct fc t with
      | none => rw [hs] at hb; simp at hb
      | some s =>
        rw [hs] at hb
        have hpB : p + s ≤ B := by simpa using hb
        rw [LookupTable.size_of_struct] at hs
        cases hw : lt.for_scalars_of_struct fc t with
        | none => rw [hw] at hs; cases hs
        | some ws =>
          rw [hw] at hs
          have hsum : ws.sum = s := by simpa using hs
          rw [LookupTable.for_scalars_of_struct] at hw
          cases hd : List.lookup t lt.struct_fields with
          | none => rw [hd] at hw; cases hw
          | some fs =>
            rw [hd, Option.some_bind] at hw
            rw [readStruct_spec lt fc t fs ws m1 p hd hw,
              readStruct_spec lt fc t fs ws m2 p hd hw]
            congr 1
            apply wordReads_congr
            intro a ha1 ha2
            apply hm
            have h4 : ws.sum = 4 * ws.length := sum_of_all4 ws (fl_all4 lt fc _ ws hw)
            omega
    | UnstableStruct t fields =>
      cases fc with
      | zero => simp [vvBelow] at hb
      | succ k =>
        rw [vvBelow_unstable_succ] at hb
        rw [obs_unstable_succ, obs_unstable_succ]
        have loop : ∀ vs, belowGo (vvBelow lt B k) vs = true →
            obsGo (obs lt m1 k) vs = obsGo (obs lt m2 k) vs := by
          intro vs
          induction vs with
          | nil => intro _; rfl
          | cons v vs ihf =>
            intro hb2
            simp only [belowGo, Bool.and_eq_true] at hb2
            simp only [obsGo]
            rw [IH k (by omega) v hb2.1, ihf hb2.2]
        exact loop fields hb

theorem obsFieldsGo_congr_below (lt : LookupTable) (m1 m2 : Mem) (B k : Nat)
    (hm : ∀ a, a < B → m1 a = m2 a) :
    ∀ vs, belowGo (vvBelow lt B k) vs = true →
      obsFieldsGo (obs lt m1 k) vs = obsFieldsGo (obs lt m2 k) vs := by
  intro vs
  induction vs with
  | nil => intro _; rfl
  | cons v vs ihf =>
    intro hb
    simp only [belowGo, Bool.and_eq_true] at hb
    simp only [obsFieldsGo]
    rw [obs_congr_below lt m1 m2 B hm k v hb.1, ihf hb.2]

theorem write_spec (lt : LookupTable) (tf : Nat) :
    ∀ fc, fc < tf →
      ∀ (name : String) (field : Nat) (fty : Ty) (off : Nat) (v : VV) (xs : List Nat)
        (B : Nat) (st : St) (ptr : Nat),
        lt.offset_of_field tf name field = some off →
        conform lt fc fty v = true →
        obs lt st.mem fc v = some xs →
        vvBelow lt B fc v = true →
        B ≤ ptr + off →
        ∃ st2, write_struct_field lt tf (fc + 1) st name field ptr v = some st2
          ∧ st2.next = st.next
          ∧ (∀ a, a < ptr + off ∨ ptr + off + 4 * xs.length ≤ a → st2.mem a = st.mem a)
          ∧ (∀ j, j < xs.length → mload st2.mem (ptr + off + 4 * j) 4 = xs.getD j 0) := by
  intro fc
  induction fc using Nat.strong_induction_on with
  | _ fc IH =>
    intro hfc name field fty off v xs B st ptr hoff hconf hobs hbelow hB
    cases v with
    | Scalar value =>
      have hv := (conform_scalar_elim lt fc fty value hconf).2
      rw [obs_scalar] at hobs
      cases hobs
      refine ⟨{ mem := mstore st.mem (ptr + off) 4 value, next := st.next,
                trace := st.trace ++ [.store (ptr + off) value] }, ?_, rfl, ?_, ?_⟩
      · simp only [write_struct_field, hoff]
      · intro a ha
        simp only [List.length_cons, List.length_nil] at ha
        rcases ha with ha | ha
        · exact mstore_eq_of_lt _ _ _ _ _ (by omega)
        · exact mstore_eq_of_ge _ _ _ _ _ (by omega)
      · intro j hj
        have hj0 : j = 0 := by simp at hj; omega
        subst hj0
        show mload (mstore st.mem (ptr + off) 4 value) (ptr + off + 4 * 0) 4
          = [value].getD 0 0
        rw [show ptr + off + 4 * 0 = ptr + off by omega]
        rw [mload_mstore_same st.mem (ptr + off) 4 value hv]
        rfl
    | StackStruct t p =>
      cases fty with
      | int => rw [conform_int_stack] at hconf; cases hconf
      | struct nm =>
        rw [conform_stack, Bool.and_eq_true] at hconf
        obtain ⟨-, hsome⟩ := hconf
        rw [LookupTable.for_scalars_of_struct] at hsome
        cases hd : List.lookup t lt.struct_fields with
        | none => rw [hd] at hsome; cases hsome
        | some fs =>
          rw [hd, Option.some_bind] at hsome
          cases hw : lt.for_scalars_list fc (fs.map Prod.snd) with
          | none => rw [hw] at hsome; cases hsome
          | some ws =>
            rw [obs_stack, readStruct_spec lt fc t fs ws st.mem p hd hw] at hobs
            cases hobs
            rw [vvBelow_stack] at hbelow
            have hsz : lt.size_of_struct fc t = some ws.sum := by
              rw [LookupTable.size_of_struct, LookupTable.for_scalars_of_struct, hd,
                Option.some_bind, hw]
              rfl
            rw [hsz] at hbelow
            have hpB : p + ws.sum ≤ B := by simpa using hbelow
            have hsum : ws.sum = 4 * ws.length := sum_of_all4 ws (fl_all4 lt fc _ ws hw)
            obtain ⟨g, hg⟩ : ∃ g, tf = g + 1 := ⟨tf - 1, by omega⟩
            have hwg : lt.for_scalars_list g (fs.map Prod.snd) = some ws :=
              fl_mono_le lt (by omega) _ ws hw
            obtain ⟨st2, hcopy, hnext, hframe, hreads⟩ := copy_spec lt g t fs ws
              { st with trace := st.trace ++ [.iadd_imm ptr off] } p (ptr + off) hd hwg
              (by omega)
            refine ⟨st2, ?_, hnext, ?_, ?_⟩
            · simp only [write_struct_field, hoff]
              rw [hg]
              exact hcopy
            · intro a ha
              rw [wordReads_length] at ha
              exact hframe a ha
            · intro j hj
              rw [wordReads_length] at hj
              rw [wordReads_getD st.mem ws.length p j hj]
              exact hreads j hj
    | UnstableStruct t fields =>
      cases fty with
      | int => rw [conform_int_unstable] at hconf; cases hconf
      | struct nm =>
        cases fc with
        | zero => rw [conform_unstable_zero] at hconf; cases hconf
        | succ k =>
          rw [conform_unstable_succ, Bool.and_eq_true] at hconf
          obtain ⟨hnm, hrest⟩ := hconf
          have hnm' : nm = t := by simpa using hnm
          subst hnm'
          cases hd : List.lookup nm lt.struct_fields with
          | none => rw [hd] at hrest; cases hrest
          | some decl =>
            rw [hd] at hrest
            rw [vvBelow_unstable_succ] at hbelow
            rw [obs_unstable_succ, obsGo_eq_flatten] at hobs
            cases hfx : obsFieldsGo (obs lt st.mem k) fields with
            | none => rw [hfx] at hobs; cases hobs
            | some xss =>
              rw [hfx] at hobs
              have hxs : xs = xss.flatten := by
                have := Option.some.inj (by simpa using hobs)
                exact this.symm
              subst hxs
              have loop : ∀ (ds : FieldList) (vs : List VV) (i : Nat) (wpre : List Nat)
                  (xss2 : List (List Nat)) (st1 : St),
                  decl.drop i = ds →
                  lt.for_scalars_list (k + 1) ((decl.take i).map Prod.snd) = some wpre →
                  confGo (conform lt k) ds vs = true →
                  obsFieldsGo (obs lt st1.mem k) vs = some xss2 →
                  belowGo (vvBelow lt B k) vs = true →
                  B ≤ ptr + off + 4 * wpre.length →
                  ∃ st2, writeGo (write_struct_field lt tf (k + 1)) st1 nm vs i ptr off
                      = some st2
                    ∧ st2.next = st1.next
                    ∧ (∀ a, a < ptr + off + 4 * wpre.length
                        ∨ ptr + off + 4 * wpre.length + 4 * xss2.flatten.length ≤ a →
                        st2.mem a = st1.mem a)
                    ∧ (∀ j, j < xss2.flatten.length →
                        mload st2.mem (ptr + off + 4 * wpre.length + 4 * j) 4
                          = xss2.flatten.getD j 0) := by
                intro ds
                induction ds with
                | nil =>
                  intro vs i wpre xss2 st1 hdrop hpre hcf hox hbl hBb
                  cases vs with
                  | cons v vs => simp [confGo] at hcf
                  | nil =>
                    simp only [obsFieldsGo] at hox
                    cases hox
                    refine ⟨st1, rfl, rfl, fun a _ => rfl, ?_⟩
                    intro j hj
                    exact absurd hj (by simp)
                | cons d ds2 ihd =>
                  intro vs i wpre xss2 st1 hdrop hpre hcf hox hbl hBb
                  cases vs with
                  | nil => simp [confGo] at hcf
                  | cons v vs2 =>
                    simp only [confGo, Bool.and_eq_true] at hcf
                    simp only [belowGo, Bool.and_eq_true] at hbl
                    simp only [obsFieldsGo] at hox
                    cases hOv : obs lt st1.mem k v with
                    | none => rw [hOv] at hox; cases hox
                    | some xs1 =>
                      rw [hOv] at hox
                      cases hOr : obsFieldsGo (obs lt st1.mem k) vs2 with
                      | none => rw [hOr] at hox; cases hox
                      | some xss3 =>
                        rw [hOr] at hox
                        cases hox
                        obtain ⟨a1, xs1', hA1, hX1, hL1⟩ :=
                          conform_obs lt st1.mem k d.2 v hcf.1
                        obtain rfl : xs1 = xs1' := by
                          rw [hOv] at hX1
                          exact Option.some.inj hX1
                        have hoffAux := offsetAux_of_take lt (k + 1) i decl d ds2 wpre
                          hdrop hpre
                        have hsum : wpre.sum = 4 * wpre.length :=
                          sum_of_all4 wpre (fl_all4 lt (k + 1) _ wpre hpre)
                        have hoffI : lt.offset_of_field tf nm i = some (4 * wpre.length) := by
                          rw [LookupTable.offset_of_field, hd, Option.some_bind, ← hsum]
                          exact offsetAux_mono lt (by omega) decl i _ hoffAux
                        obtain ⟨st2, hw1, hn1, hf1, hr1⟩ := IH k (by omega) (by omega) nm i d.2
                          (4 * wpre.length) v xs1 B
                          { st1 with trace := st1.trace ++ [.iadd_imm ptr off] } (ptr + off)
                          hoffI hcf.1 hOv hbl.1 (by omega)
                        have htake := take_drop_succ i decl d ds2 hdrop
                        have hpre2 : lt.for_scalars_list (k + 1)
                            ((decl.take (i + 1)).map Prod.snd) = some (wpre ++ a1) := by
                          rw [htake, List.map_append]
                          exact fl_append_intro lt (k + 1) _ _ wpre a1 hpre hA1
                        have hdrop2 : decl.drop (i + 1) = ds2 := by
                          have h1 := List.drop_drop 1 i decl
                          rw [hdrop] at h1
                          simpa using h1.symm
                        have hmemB : ∀ a, a < B → st2.mem a = st1.mem a :=
                          fun a ha => hf1 a (Or.inl (by omega))
                        have hOr2 : obsFieldsGo (obs lt st2.mem k) vs2 = some xss3 := by
                          rw [obsFieldsGo_congr_below lt st2.mem st1.mem B k hmemB vs2 hbl.2]
                          exact hOr
                        obtain ⟨st3, hw2, hn2, hf2, hr2⟩ := ihd vs2 (i + 1) (wpre ++ a1)
                          xss3 st2 hdrop2 hpre2 hcf.2 hOr2 hbl.2
                          (by simp only [List.length_append]; omega)
                        simp only [List.length_append] at hf2 hr2
                        refine ⟨st3, ?_, ?_, ?_, ?_⟩
                        · simp only [writeGo]
                          rw [hw1]
                          exact hw2
                        · rw [hn2, hn1]
                        · intro a ha
                          simp only [List.flatten_cons, List.length_append] at ha
                          rw [hf2 a (by omega)]
                          rcases ha with ha | ha
                          · exact hf1 a (Or.inl (by omega))
                          · exact hf1 a (Or.inr (by omega))
                        · intro j hj
                          simp only [List.flatten_cons, List.length_append] at hj ⊢
                          by_cases hcase : j < xs1.length
                          · have hbytes : ∀ i2, i2 < 4 →
                                st3.mem (ptr + off + 4 * wpre.length + 4 * j + i2)
                                  = st2.mem (ptr + off + 4 * wpre.length + 4 * j + i2) :=
                              fun i2 hi2 => hf2 _ (Or.inl (by omega))
                            rw [mload_congr st3.mem st2.mem _ 4 hbytes]
                            rw [hr1 j hcase]
                            exact (getD_append_left xs1 xss3.flatten j hcase).symm
                          · obtain ⟨j', rfl⟩ : ∃ j', j = xs1.length + j' :=
                              ⟨j - xs1.length, by omega⟩
                            have hj' : j' < xss3.flatten.length := by omega
                            have hstep := hr2 j' hj'
                            rw [show ptr + off + 4 * (wpre.length + a1.length) + 4 * j'
                                = ptr + off + 4 * wpre.length + 4 * (xs1.length + j')
                                by omega] at hstep
                            rw [hstep]
                            exact (getD_append_skip xs1 xss3.flatten j').symm
              obtain ⟨st2, hgo, hnext, hframe, hreads⟩ := loop decl fields 0 [] xss st
                (by simp) (by rw [List.take_zero, List.map_nil]; exact fl_nil lt (k + 1))
                hrest hfx hbelow (by simpa using hB)
              simp only [List.length_nil, Nat.mul_zero, Nat.add_zero] at hframe hreads
              refine ⟨st2, ?_, hnext, ?_, ?_⟩
              · simp only [write_struct_field, hoff]
                exact hgo
              · intro a ha
                exact hframe a ha
              · intro j hj
                exact hreads j hj

theorem writeAll_spec (lt : LookupTable) (tf k : Nat) (t : String) (decl : FieldList)
    (B : Nat) (htf : k < tf) (hd : List.lookup t lt.struct_fields = some decl) :
    ∀ (ds : FieldList) (vs : List VV) (i : Nat) (wpre : List Nat)
      (xss : List (List Nat)) (st : St) (ptr : Nat),
      decl.drop i = ds →
      lt.for_scalars_list (k + 1) ((decl.take i).map Prod.snd) = some wpre →
      confGo (conform lt k) ds vs = true →
      obsFieldsGo (obs lt st.mem k) vs = some xss →
      belowGo (vvBelow lt B k) vs = true →
      B ≤ ptr + 4 * wpre.length →
      ∃ st2, writeAllGo (write_struct_field lt tf (k + 1)) st t vs i ptr = some st2
        ∧ st2.next = st.next
        ∧ (∀ a, a < ptr + 4 * wpre.length
            ∨ ptr + 4 * wpre.length + 4 * xss.flatten.length ≤ a →
            st2.mem a = st.mem a)
        ∧ (∀ j, j < xss.flatten.length →
            mload st2.mem (ptr + 4 * wpre.length + 4 * j) 4 = xss.flatten.getD j 0) := by
  intro ds
  induction ds with
  | nil =>
    intro vs i wpre xss st ptr hdrop hpre hcf hox hbl hBb
    cases vs with
    | cons v vs => simp [confGo] at hcf
    | nil =>
      simp only [obsFieldsGo] at hox
      cases hox
      refine ⟨st, rfl, rfl, fun a _ => rfl, ?_⟩
      intro j hj
      exact absurd hj (by simp)
  | cons d ds2 ihd =>
    intro vs i wpre xss st ptr hdrop hpre hcf hox hbl hBb
    cases vs with
    | nil => simp [confGo] at hcf
    | cons v vs2 =>
      simp only [confGo, Bool.and_eq_true] at hcf
      simp only [belowGo, Bool.and_eq_true] at hbl
      simp only [obsFieldsGo] at hox
      cases hOv : obs lt st.mem k v with
      | none => rw [hOv] at hox; cases hox
      | some xs1 =>
        rw [hOv] at hox
        cases hOr : obsFieldsGo (obs lt st.mem k) vs2 with
        | none => rw [hOr] at hox; cases hox
        | some xss3 =>
          rw [hOr] at hox
          cases hox
          obtain ⟨a1, xs1', hA1, hX1, hL1⟩ := conform_obs lt st.mem k d.2 v hcf.1
          obtain rfl : xs1 = xs1' := by
            rw [hOv] at hX1
            exact Option.some.inj hX1
          have hoffAux := offsetAux_of_take lt (k + 1) i decl d ds2 wpre hdrop hpre
          have hsum : wpre.sum = 4 * wpre.length :=
            sum_of_all4 wpre (fl_all4 lt (k + 1) _ wpre hpre)
          have hoffI : lt.offset_of_field tf t i = some (4 * wpre.length) := by
            rw [LookupTable.offset_of_field, hd, Option.some_bind, ← hsum]
            exact offsetAux_mono lt (by omega) decl i _ hoffAux
          obtain ⟨st2, hw1, hn1, hf1, hr1⟩ := write_spec lt tf k htf t i d.2
            (4 * wpre.length) v xs1 B st ptr hoffI hcf.1 hOv hbl.1 (by omega)
          have htake := take_drop_succ i decl d ds2 hdrop
          have hpre2 : lt.for_scalars_list (k + 1)
              ((decl.take (i + 1)).map Prod.snd) = some (wpre ++ a1) := by
            rw [htake, List.map_append]
            exact fl_append_intro lt (k + 1) _ _ wpre a1 hpre hA1
          have hdrop2 : decl.drop (i + 1) = ds2 := by
            have h1 := List.drop_drop 1 i decl
            rw [hdrop] at h1
            simpa using h1.symm
          have hmemB : ∀ a, a < B → st2.mem a = st.mem a :=
            fun a ha => hf1 a (Or.inl (by omega))
          have hOr2 : obsFieldsGo (obs lt st2.mem k) vs2 = some xss3 := by
            rw [obsFieldsGo_congr_below lt st2.mem st.mem B k hmemB vs2 hbl.2]
            exact hOr
          obtain ⟨st3, hw2, hn2, hf2, hr2⟩ := ihd vs2 (i + 1) (wpre ++ a1) xss3 st2 ptr
            hdrop2 hpre2 hcf.2 hOr2 hbl.2 (by simp only [List.length_append]; omega)
          simp only [List.length_append] at hf2 hr2
          refine ⟨st3, ?_, ?_, ?_, ?_⟩
          · simp only [writeAllGo]
            rw [hw1]
            exact hw2
          · rw [hn2, hn1]
          · intro a ha
            simp only [List.flatten_cons, List.length_append] at ha
            rw [hf2 a (by omega)]
            rcases ha with ha | ha
            · exact hf1 a (Or.inl (by omega))
            · exact hf1 a (Or.inr (by omega))
          · intro j hj
            simp only [List.flatten_cons, List.length_append] at hj ⊢
            by_cases hcase : j < xs1.length
            · have hbytes : ∀ i2, i2 < 4 →
                  st3.mem (ptr + 4 * wpre.length + 4 * j + i2)
                    = st2.mem (ptr + 4 * wpre.length + 4 * j + i2) :=
                fun i2 hi2 => hf2 _ (Or.inl (by omega))
              rw [mload_congr st3.mem st2.mem _ 4 hbytes]
              rw [hr1 j hcase]
              exact (getD_append_left xs1 xss3.flatten j hcase).symm
            · obtain ⟨j', rfl⟩ : ∃ j', j = xs1.length + j' := ⟨j - xs1.length, by omega⟩
              have hj' : j' < xss3.flatten.length := by omega
              have hstep := hr2 j' hj'
              rw [show ptr + 4 * (wpre.length + a1.length) + 4 * j'
                  = ptr + 4 * wpre.length + 4 * (xs1.length + j') by omega] at hstep
              rw [hstep]
              exact (getD_append_skip xs1 xss3.flatten j').symm

theorem confGo_fl (lt : LookupTable) (m : Mem) (k : Nat) :
    ∀ (ds : FieldList) (vs : List VV) (xss : List (List Nat)),
      confGo (conform lt k) ds vs = true →
      obsFieldsGo (obs lt m k) vs = some xss →
      ∃ ws, lt.for_scalars_list (k + 1) (ds.map Prod.snd) = some ws
        ∧ ws.length = xss.flatten.length := by
  intro ds
  induction ds with
  | nil =>
    intro vs xss hcf hox
    cases vs with
    | cons v vs => simp [confGo] at hcf
    | nil =>
      simp only [obsFieldsGo] at hox
      cases hox
      exact ⟨[], fl_nil lt (k + 1), rfl⟩
  | cons d ds2 ihd =>
    intro vs xss hcf hox
    cases vs with
    | nil => simp [confGo] at hcf
    | cons v vs2 =>
      simp only [confGo, Bool.and_eq_true] at hcf
      simp only [obsFieldsGo] at hox
      cases hOv : obs lt m k v with
      | none => rw [hOv] at hox; cases hox
      | some xs1 =>
        rw [hOv] at hox
        cases hOr : obsFieldsGo (obs lt m k) vs2 with
        | none => rw [hOr] at hox; cases hox
        | some xss3 =>
          rw [hOr] at hox
          cases hox
          obtain ⟨a1, xs1', hA1, hX1, hL1⟩ := conform_obs lt m k d.2 v hcf.1
          obtain rfl : xs1 = xs1' := by
            rw [hOv] at hX1
            exact Option.some.inj hX1
          obtain ⟨ws2, hW2, hL2⟩ := ihd vs2 xss3 hcf.2 hOr
          refine ⟨a1 ++ ws2, ?_, ?_⟩
          · rw [List.map_cons]
            exact for_scalars_cons_intro lt (k + 1) d.2 _ a1 ws2 hA1 hW2
          · simp [hL1, hL2]

theorem fieldInfo (lt : LookupTable) (m : Mem) (k : Nat) :
    ∀ (i : Nat) (ds : FieldList) (vs : List VV) (xss : List (List Nat)) (d : String × Ty),
      confGo (conform lt k) ds vs = true →
      obsFieldsGo (obs lt m k) vs = some xss →
      ds[i]? = some d →
      ∃ v xs wpre, vs[i]? = some v ∧ xss[i]? = some xs
        ∧ conform lt k d.2 v = true
        ∧ obs lt m k v = some xs
        ∧ lt.for_scalars_list (k + 1) ((ds.take i).map Prod.snd) = some wpre
        ∧ wpre.length = ((xss.take i).map List.length).sum := by
  intro i
  induction i with
  | zero =>
    intro ds vs xss d hcf hox hget
    cases ds with
    | nil => cases hget
    | cons d0 ds2 =>
      cases vs with
      | nil => simp [confGo] at hcf
      | cons v vs2 =>
        simp only [confGo, Bool.and_eq_true] at hcf
        simp only [obsFieldsGo] at hox
        cases hOv : obs lt m k v with
        | none => rw [hOv] at hox; cases hox
        | some xs1 =>
          rw [hOv] at hox
          cases hOr : obsFieldsGo (obs lt m k) vs2 with
          | none => rw [hOr] at hox; cases hox
          | some xss3 =>
            rw [hOr] at hox
            cases hox
            have hd0 : d0 = d := by simpa using hget
            subst hd0
            exact ⟨v, xs1, [], by simp, by simp, hcf.1, hOv, fl_nil lt (k + 1), rfl⟩
  | succ i ih =>
    intro ds vs xss d hcf hox hget
    cases ds with
    | nil => cases hget
    | cons d0 ds2 =>
      cases vs with
      | nil => simp [confGo] at hcf
      | cons v vs2 =>
        simp only [confGo, Bool.and_eq_true] at hcf
        simp only [obsFieldsGo] at hox
        cases hOv : obs lt m k v with
        | none => rw [hOv] at hox; cases hox
        | some xs1 =>
          rw [hOv] at hox
          cases hOr : obsFieldsGo (obs lt m k) vs2 with
          | none => rw [hOr] at hox; cases hox
          | some xss3 =>
            rw [hOr] at hox
            cases hox
            obtain ⟨a1, xs1', hA1, hX1, hL1⟩ := conform_obs lt m k d0.2 v hcf.1
            obtain rfl : xs1 = xs1' := by
              rw [hOv] at hX1
              exact Option.some.inj hX1
            simp only [List.getElem?_cons_succ] at hget
            obtain ⟨v', xs', wpre', hvi, hxi, hcv, hov, hwp, hwl⟩ :=
              ih ds2 vs2 xss3 d hcf.2 hOr hget
            refine ⟨v', xs', a1 ++ wpre', ?_, ?_, hcv, hov, ?_, ?_⟩
            · simpa using hvi
            · simpa using hxi
            · show lt.for_scalars_list (k + 1) ((d0 :: ds2.take i).map Prod.snd)
                = some (a1 ++ wpre')
              rw [List.map_cons]
              exact for_scalars_cons_intro lt (k + 1) d0.2 _ a1 wpre' hA1 hwp
            · simp only [List.take_succ_cons, List.map_cons, List.sum_cons,
                List.length_append]
              omega

/-- C4: aggregate round-trip.  Constructing an aggregate (`construct_struct`)
and then destructuring every field yields values observably equal to the
inputs: an `UnstableStruct` hands back the stored sub-values directly with
the state untouched, and after materializing it to the stack via
field-by-field writes (`materialize`, the `ByPointer` path built on
`write_struct_field`), destructuring field `i` of the resulting
`StackStruct` yields a value whose observation equals the observation of
the `i`-th input value (scalar equality for scalars, recursive flattened
equality for nested aggregates). -/
theorem c4_aggregate_roundtrip
    (lt : LookupTable) (tf k : Nat) (type_ : String) (decl : FieldList)
    (pairs : List (String × VV)) (vs : List VV) (st : St) (B : Nat)
    (xss : List (List Nat))
    (htf : k < tf)
    (hd : List.lookup type_ lt.struct_fields = some decl)
    (hcons : FuncLower.construct_struct lt type_ pairs = some (.UnstableStruct type_ vs))
    (hconf : confGo (conform lt k) decl vs = true)
    (hox : obsFields lt st.mem k vs = some xss)
    (hbel : belowGo (vvBelow lt B k) vs = true)
    (hB : B ≤ st.next) :
    (∀ i, destruct_field lt tf st (.UnstableStruct type_ vs) i
        = (vs[i]?).map (fun v => (st, v)))
    ∧ ∃ st2, materialize lt tf (k + 1) st type_ vs = some (st2, st.next)
        ∧ (∀ a, a < st.next → st2.mem a = st.mem a)
        ∧ ∀ i d, decl[i]? = some d →
            ∃ st3 w, destruct_field lt tf st2 (.StackStruct type_ st.next) i = some (st3, w)
              ∧ st3.mem = st2.mem ∧ st3.next = st2.next
              ∧ obs lt st2.mem k w = xss[i]? := by
  refine ⟨fun i => rfl, ?_⟩
  obtain ⟨ws, hws, hwsL⟩ := confGo_fl lt st.mem k decl vs xss hconf hox
  have hwsTf : lt.for_scalars_list tf (decl.map Prod.snd) = some ws :=
    fl_mono_le lt (by omega) _ ws hws
  have hsz : lt.size_of_struct tf type_ = some ws.sum := by
    rw [LookupTable.size_of_struct, LookupTable.for_scalars_of_struct, hd,
      Option.some_bind, hwsTf]
    rfl
  have hsum4 : ws.sum = 4 * ws.length := sum_of_all4 ws (fl_all4 lt tf _ ws hwsTf)
  obtain ⟨st2, hgo, hnext, hframe, hreads⟩ := writeAll_spec lt tf k type_ decl B htf hd
    decl vs 0 [] xss
    { mem := st.mem, next := st.next + ws.sum, trace := st.trace ++ [.stack_addr st.next] }
    st.next rfl (by rw [List.take_zero, List.map_nil]; exact fl_nil lt (k + 1))
    hconf hox hbel (by simpa using hB)
  simp only [List.length_nil, Nat.mul_zero, Nat.add_zero] at hframe hreads
  refine ⟨st2, ?_, ?_, ?_⟩
  · show (match stack_alloc_struct lt tf st type_ with
          | none => none
          | some (st2, ptr) =>
            match write_all_fields lt tf (k + 1) st2 type_ vs ptr with
            | none => none
            | some st3 => some (st3, ptr)) = some (st2, st.next)
    rw [show stack_alloc_struct lt tf st type_
        = some ({ mem := st.mem, next := st.next + ws.sum,
                  trace := st.trace ++ [.stack_addr st.next] }, st.next) by
      rw [stack_alloc_struct, hsz]; rfl]
    show (match writeAllGo (write_struct_field lt tf (k + 1)) _ type_ vs 0 st.next with
          | none => none
          | some st3 => some (st3, st.next)) = some (st2, st.next)
    rw [hgo]
  · intro a ha
    exact hframe a (Or.inl ha)
  · intro i d hget
    obtain ⟨v, xs, wpre, hvi, hxi, hcv, hov, hwp, hwl⟩ :=
      fieldInfo lt st.mem k i decl vs xss d hconf hox hget
    have hdropi : decl.drop i = d :: decl.drop (i + 1) := getElem_opt_drop_cons i decl d hget
    have hoffAux := offsetAux_of_take lt (k + 1) i decl d (decl.drop (i + 1)) wpre hdropi hwp
    have hsum : wpre.sum = 4 * wpre.length := sum_of_all4 wpre (fl_all4 lt (k + 1) _ wpre hwp)
    have hoffI : lt.offset_of_field tf type_ i = some (4 * wpre.length) := by
      rw [LookupTable.offset_of_field, hd, Option.some_bind, ← hsum]
      exact offsetAux_mono lt (by omega) decl i _ hoffAux
    have htyp : lt.type_of_field type_ i = some d.2 := by
      rw [LookupTable.type_of_field, hd, Option.some_bind, hget]
      rfl
    have hjl := join_len_lower xss i xs hxi
    rw [← hwl] at hjl
    cases hdty : d.2 with
    | int =>
      rw [hdty] at hcv
      cases v with
      | StackStruct t p => rw [conform_int_stack] at hcv; cases hcv
      | UnstableStruct t fs2 => rw [conform_int_unstable] at hcv; cases hcv
      | Scalar n =>
        rw [obs_scalar] at hov
        cases hov
        refine ⟨{ st2 with trace := st2.trace ++ [.load (st.next + 4 * wpre.length)] },
          .Scalar (mload st2.mem (st.next + 4 * wpre.length) 4), ?_, rfl, rfl, ?_⟩
        · simp only [destruct_field, hoffI, htyp, hdty]
        · rw [obs_scalar, hxi]
          have hc : wpre.length < xss.flatten.length := by
            simp only [List.length_cons, List.length_nil] at hjl
            omega
          have := hreads wpre.length hc
          rw [this]
          have := join_getD xss i [n] 0 hxi (by simp)
          rw [← hwl] at this
          rw [show wpre.length + 0 = wpre.length by omega] at this
          rw [this]
          rfl
    | struct s =>
      rw [hdty] at hcv
      obtain ⟨a1, xs', hA1, hX1, hL1⟩ := conform_obs lt st.mem k (.struct s) v hcv
      obtain rfl : xs = xs' := by
        rw [hov] at hX1
        exact Option.some.inj hX1
      obtain ⟨g, sdecl, hgk, hsd, hsfl⟩ := for_scalars_struct_elim lt (k + 1) s a1 hA1
      obtain rfl : k = g := by omega
      refine ⟨{ st2 with trace := st2.trace ++ [.iadd_imm st.next (4 * wpre.length)] },
        .StackStruct s (st.next + 4 * wpre.length), ?_, rfl, rfl, ?_⟩
      · simp only [destruct_field, hoffI, htyp, hdty]
      · rw [obs_stack, readStruct_spec lt k s sdecl a1 st2.mem (st.next + 4 * wpre.length)
          hsd hsfl, hxi]
        congr 1
        apply list_eq_of_getD
        · rw [wordReads_length, hL1]
        · intro j hj
          rw [wordReads_length] at hj
          rw [wordReads_getD st2.mem a1.length (st.next + 4 * wpre.length) j hj]
          have hcj : wpre.length + j < xss.flatten.length := by omega
          have hr := hreads (wpre.length + j) hcj
          rw [show st.next + 4 * wpre.length + 4 * j
              = st.next + 4 * (wpre.length + j) by omega]
          rw [hr]
          have hjd := join_getD xss i xs j hxi (by omega)
          rw [← hwl] at hjd
          exact hjd

theorem c4_aggregate_roundtrip_witness :
    (∀ i, destruct_field (LookupTable.hardcoded 8) 1 ⟨memZero, 0, []⟩
        (.UnstableStruct "Point" [.Scalar 1, .Scalar 2]) i
        = (([VV.Scalar 1, VV.Scalar 2])[i]?).map (fun v => (⟨memZero, 0, []⟩, v)))
    ∧ ∃ st2, materialize (LookupTable.hardcoded 8) 1 1 ⟨memZero, 0, []⟩ "Point"
          [.Scalar 1, .Scalar 2] = some (st2, 0)
        ∧ (∀ a, a < 0 → st2.mem a = memZero a)
        ∧ ∀ i d, ([("x", Ty.int), ("y", Ty.int)])[i]? = some d →
            ∃ st3 w, destruct_field (LookupTable.hardcoded 8) 1 st2
                (.StackStruct "Point" 0) i = some (st3, w)
              ∧ st3.mem = st2.mem ∧ st3.next = st2.next
              ∧ obs (LookupTable.hardcoded 8) st2.mem 0 w
                  = ([[1], [2]] : List (List Nat))[i]? :=
  c4_aggregate_roundtrip (LookupTable.hardcoded 8) 1 0 "Point"
    [("x", Ty.int), ("y", Ty.int)]
    [("x", VV.Scalar 1), ("y", VV.Scalar 2)]
    [VV.Scalar 1, VV.Scalar 2] ⟨memZero, 0, []⟩ 0 [[1], [2]]
    (by decide) rfl rfl (by decide) rfl rfl (by decide)

theorem vvp_scalar (lt : LookupTable) (tf vf : Nat) (st : St) (buf : List Nat) (value : Nat) :
    vv_to_func_params lt tf vf st buf (.Scalar value) = some (st, buf ++ [value]) := by
  cases vf <;> rfl

theorem vvp_stack (lt : LookupTable) (tf vf : Nat) (st : St) (buf : List Nat)
    (t : String) (src : Nat) :
    vv_to_func_params lt tf vf st buf (.StackStruct t src)
      = (match lt.struct_passing_mode tf t with
         | some .ByScalars =>
           match deref_fields lt tf st t src 0 with
           | none => none
           | some (st2, vs) => some (st2, buf ++ vs)
         | some .ByPointer => some (st, buf ++ [src])
         | none => none) := by
  cases vf <;> rfl

theorem vvParamsGo_buf (rec : St → List Nat → VV → Option (St × List Nat))
    (hrec : ∀ st buf v, rec st buf v = (rec st [] v).map (fun r => (r.1, buf ++ r.2))) :
    ∀ (vs : List VV) (st : St) (buf : List Nat),
      vvParamsGo rec st buf vs = (vvParamsGo rec st [] vs).map (fun r => (r.1, buf ++ r.2)) := by
  intro vs
  induction vs with
  | nil => intro st buf; simp [vvParamsGo]
  | cons v vs ih =>
    intro st buf
    show (match rec st buf v with
          | none => none
          | some (st2, buf2) => vvParamsGo rec st2 buf2 vs)
        = Option.map (fun r => (r.1, buf ++ r.2))
            (match rec st [] v with
             | none => none
             | some (st2, buf2) => vvParamsGo rec st2 buf2 vs)
    rw [hrec st buf v]
    cases hv : rec st [] v with
    | none => rfl
    | some r =>
      obtain ⟨st2, buf2⟩ := r
      show vvParamsGo rec st2 (buf ++ buf2) vs
          = Option.map (fun r => (r.1, buf ++ r.2)) (vvParamsGo rec st2 buf2 vs)
      rw [ih st2 (buf ++ buf2), ih st2 buf2]
      cases hX : vvParamsGo rec st2 [] vs with
      | none => rfl
      | some r2 => simp [List.append_assoc]

theorem vv_params_buf (lt : LookupTable) (tf : Nat) :
    ∀ (vf : Nat) (v : VV) (st : St) (buf : List Nat),
      vv_to_func_params lt tf vf st buf v
        = (vv_to_func_params lt tf vf st [] v).map (fun r => (r.1, buf ++ r.2)) := by
  intro vf
  induction vf using Nat.strong_induction_on with
  | _ vf IH =>
    intro v st buf
    cases v with
    | Scalar value =>
      rw [vvp_scalar, vvp_scalar]
      simp
    | StackStruct t src =>
      rw [vvp_stack, vvp_stack]
      cases hm : lt.struct_passing_mode tf t with
      | none => rfl
      | some mode =>
        cases mode with
        | ByPointer => simp
        | ByScalars =>
          cases hdf : deref_fields lt tf st t src 0 with
          | none => rfl
          | some r =>
            obtain ⟨st2, vs⟩ := r
            simp
    | UnstableStruct t fields =>
      cases vf with
      | zero => rfl
      | succ f =>
        show (match lt.struct_passing_mode tf t with
              | some .ByScalars => vvParamsGo (vv_to_func_params lt tf f) st buf fields
              | some .ByPointer =>
                match materialize lt tf (f + 1) st t fields with
                | none => none
                | some (st2, ptr) => some (st2, buf ++ [ptr])
              | none => none)
            = Option.map (fun r => (r.1, buf ++ r.2))
                (match lt.struct_passing_mode tf t with
                 | some .ByScalars => vvParamsGo (vv_to_func_params lt tf f) st [] fields
                 | some .ByPointer =>
                   match materialize lt tf (f + 1) st t fields with
                   | none => none
                   | some (st2, ptr) => some (st2, [] ++ [ptr])
                 | none => none)
        cases hm : lt.struct_passing_mode tf t with
        | none => rfl
        | some mode =>
          cases mode with
          | ByScalars =>
            exact vvParamsGo_buf (vv_to_func_params lt tf f)
              (fun st' buf' v' => IH f (by omega) v' st' buf') fields st buf
          | ByPointer =>
            cases hmz : materialize lt tf (f + 1) st t fields with
            | none => rfl
            | some r =>
              obtain ⟨st2, ptr⟩ := r
              simp

/-- C5: struct-return convention.  First conjunct (caller, `call_func`):
for a function whose return type is an aggregate classified `ByPointer`,
the caller pre-allocates destination stack space (advancing `next` by the
struct size), passes its address as the leading call argument before the
declared arguments, and the call's result is that pointer wrapped as a
`StackStruct` — independent of the backend call's own result list
(`oracle`).  Second and third conjuncts (callee, `return_`, `ByPointer`
mode with a struct-return parameter `dst`): the returned aggregate is
copied field-by-field through the struct-return pointer — from a stack
source via `copy_struct_fields`, from an unstable value via
`write_all_fields` — the emitted return instruction carries no values, and
the destination words hold exactly the flattened field values. -/
theorem c5_struct_return_convention (lt : LookupTable) (tf : Nat) :
    (∀ (vf : Nat) (st : St) (fname rname : String) (params : List VV) (s : Nat)
        (st2 : St) (args : List Nat) (oracle : List Nat),
        lt.return_type_of fname = some (.struct rname) →
        lt.struct_passing_mode tf rname = some .ByPointer →
        lt.size_of_struct tf rname = some s →
        vvs_to_func_params lt tf vf
          { mem := st.mem, next := st.next + s, trace := st.trace ++ [.stack_addr st.next] }
          [] params = some (st2, args) →
        call_func lt tf vf st fname params oracle
          = some ({ st2 with trace := st2.trace ++ [.call fname (st.next :: args)] },
              .StackStruct rname st.next))
    ∧ (∀ (g : Nat) (st : St) (type_ : String) (fields : FieldList) (ws : List Nat)
        (src dst vf : Nat),
        tf = g + 1 →
        lt.struct_passing_mode tf type_ = some .ByPointer →
        List.lookup type_ lt.struct_fields = some fields →
        lt.for_scalars_list g (fields.map Prod.snd) = some ws →
        src + 4 * ws.length ≤ dst →
        ∃ st2, return_ lt tf vf (some dst) st (.StackStruct type_ src) = some st2
          ∧ st2.next = st.next
          ∧ (∃ pre, st2.trace = pre ++ [.ret []])
          ∧ (∀ a, a < dst ∨ dst + 4 * ws.length ≤ a → st2.mem a = st.mem a)
          ∧ (∀ j, j < ws.length →
              mload st2.mem (dst + 4 * j) 4 = mload st.mem (src + 4 * j) 4))
    ∧ (∀ (k : Nat) (st : St) (type_ : String) (decl : FieldList) (vs : List VV)
        (xss : List (List Nat)) (dst B : Nat),
        k < tf →
        lt.struct_passing_mode tf type_ = some .ByPointer →
        List.lookup type_ lt.struct_fields = some decl →
        confGo (conform lt k) decl vs = true →
        obsFields lt st.mem k vs = some xss →
        belowGo (vvBelow lt B k) vs = true →
        B ≤ dst →
        ∃ st2, return_ lt tf (k + 1) (some dst) st (.UnstableStruct type_ vs) = some st2
          ∧ st2.next = st.next
          ∧ (∃ pre, st2.trace = pre ++ [.ret []])
          ∧ (∀ a, a < dst → st2.mem a = st.mem a)
          ∧ (∀ j, j < xss.flatten.length →
              mload st2.mem (dst + 4 * j) 4 = xss.flatten.getD j 0)) := by
  refine ⟨?_, ?_, ?_⟩
  · intro vf st fname rname params s st2 args oracle hret hmode hsize hparams
    have hprep : call_ret_prep lt tf st (.struct rname)
        = some ({ mem := st.mem, next := st.next + s,
                  trace := st.trace ++ [.stack_addr st.next] },
            [st.next], some (.StackStruct rname st.next)) := by
      simp only [call_ret_prep, hmode, stack_alloc_struct, hsize]
      rfl
    have hbuf : vvs_to_func_params lt tf vf
        { mem := st.mem, next := st.next + s, trace := st.trace ++ [.stack_addr st.next] }
        [st.next] params = some (st2, st.next :: args) := by
      rw [vvs_to_func_params] at hparams ⊢
      rw [vvParamsGo_buf (vv_to_func_params lt tf vf)
        (fun st' b v => vv_params_buf lt tf vf v st' b) params _ [st.next], hparams]
      rfl
    simp only [call_func, hret, hprep, hbuf]
  · intro g st type_ fields ws src dst vf hg hmode hd hfl hdisj
    subst hg
    obtain ⟨st2, hcopy, hnext, hframe, hreads⟩ :=
      copy_spec lt g type_ fields ws st src dst hd hfl hdisj
    refine ⟨{ st2 with trace := st2.trace ++ [.ret []] }, ?_, hnext,
      ⟨st2.trace, rfl⟩, hframe, hreads⟩
    simp only [return_, hmode, hcopy]
  · intro k st type_ decl vs xss dst B hk hmode hd hconf hox hbel hBd
    obtain ⟨st2, hgo, hnext, hframe, hreads⟩ := writeAll_spec lt tf k type_ decl B hk hd
      decl vs 0 [] xss st dst rfl
      (by rw [List.take_zero, List.map_nil]; exact fl_nil lt (k + 1))
      hconf hox hbel (by simpa using hBd)
    simp only [List.length_nil, Nat.mul_zero, Nat.add_zero] at hframe hreads
    refine ⟨{ st2 with trace := st2.trace ++ [.ret []] }, ?_, hnext,
      ⟨st2.trace, rfl⟩, ?_, hreads⟩
    · simp only [return_, hmode, write_all_fields, hgo]
    · intro a ha
      exact hframe a (Or.inl ha)

theorem c5_struct_return_convention_witness :
    (call_func (LookupTable.hardcoded 8) 2 1 ⟨memZero, 0, []⟩ "move_right"
        [.Scalar 7] []
      = some ({ mem := memZero, next := 12,
                trace := [Instr.stack_addr 0, Instr.call "move_right" [0, 7]] },
          VV.StackStruct "Player" 0))
    ∧ (∃ st2, return_ (LookupTable.hardcoded 8) 2 0 (some 12) ⟨memZero, 16, []⟩
          (.StackStruct "Player" 0) = some st2
        ∧ st2.next = 16
        ∧ (∃ pre, st2.trace = pre ++ [.ret []])
        ∧ (∀ a, a < 12 ∨ 12 + 4 * 3 ≤ a → st2.mem a = memZero a)
        ∧ (∀ j, j < 3 → mload st2.mem (12 + 4 * j) 4 = mload memZero (0 + 4 * j) 4))
    ∧ (∃ st2, return_ (LookupTable.hardcoded 8) 2 2 (some 0) ⟨memZero, 100, []⟩
          (.UnstableStruct "Player"
            [.Scalar 5, .UnstableStruct "Point" [.Scalar 6, .Scalar 7]]) = some st2
        ∧ st2.next = 100
        ∧ (∃ pre, st2.trace = pre ++ [.ret []])
        ∧ (∀ a, a < 0 → st2.mem a = memZero a)
        ∧ (∀ j, j < ([[5], [6, 7]] : List (List Nat)).flatten.length →
            mload st2.mem (0 + 4 * j) 4
              = ([[5], [6, 7]] : List (List Nat)).flatten.getD j 0)) :=
  ⟨(c5_struct_return_convention (LookupTable.hardcoded 8) 2).1 1 ⟨memZero, 0, []⟩
      "move_right" "Player" [.Scalar 7] 12 ⟨memZero, 12, [Instr.stack_addr 0]⟩ [7] []
      rfl rfl rfl rfl,
   (c5_struct_return_convention (LookupTable.hardcoded 8) 2).2.1 1 ⟨memZero, 16, []⟩
      "Player" [("id", Ty.int), ("position", Ty.struct "Point")] [4, 4, 4] 0 12 0
      rfl rfl rfl rfl (by decide),
   (c5_struct_return_convention (LookupTable.hardcoded 8) 2).2.2 1 ⟨memZero, 100, []⟩
      "Player" [("id", Ty.int), ("position", Ty.struct "Point")]
      [.Scalar 5, .UnstableStruct "Point" [.Scalar 6, .Scalar 7]] [[5], [6, 7]] 0 0
      (by decide) rfl rfl rfl rfl rfl (by decide)⟩

end CE
